import Mathlib

/-!
Verification development for the hypergraph-construction core of the
LNTrafficSimulator repository (scripts/topologies/fhs.py, nch.py,
supernodes.py, utils.py and the script-level redistribution / clique
projection in scripts/make_fhs_edges.py, make_nch_edges.py,
scripts/hyper_to_edges.py).

The Python code works on networkx graphs.  A networkx `Graph` is an
insertion-ordered dictionary from node to an insertion-ordered dictionary of
neighbours; we embed it as an association list `List (Nat × List Nat)`:
the entry order models dict insertion order and each neighbour list models
the adjacency-dict order.  Node identifiers are natural numbers (the data
sets use integer ids; Python's `hash` on such ints is the identity, which
matters for the tie-breaks in fhs.py).  Capacities are embedded as
rationals: the claims under study are about exact uniform splits, and `ℚ`
is the standard exact model of the float arithmetic they perform.
-/

namespace LN

/-- A networkx undirected graph: insertion-ordered adjacency association
list.  Each entry is `(node, neighbour list)`. -/
abbrev Graph := List (Nat × List Nat)

/-- The node list of the graph, in insertion order (models `G.nodes()`). -/
def nodesOf (G : Graph) : List Nat := G.map Prod.fst

/-- Adjacency lookup (models `G.neighbors(u)` resp. `G.adj[u]`); an absent
node reads as the empty list. -/
def adj (G : Graph) (u : Nat) : List Nat :=
  match G.find? (fun p => p.1 == u) with
  | some p => p.2
  | none => []

/-- Edge membership: `v` occurs in `u`'s adjacency list. -/
def hasEdge (G : Graph) (u v : Nat) : Prop := v ∈ adj G u

instance (G : Graph) (u v : Nat) : Decidable (hasEdge G u v) := by
  unfold hasEdge; infer_instance

/-- networkx node degree: the length of the adjacency list, counting a
self-loop twice (`G.degree(n)`). -/
def degree (G : Graph) (u : Nat) : Nat :=
  (adj G u).length + (if u ∈ adj G u then 1 else 0)

/-- Ensure a node entry exists (part of `G.add_edge`). -/
def addNode (G : Graph) (u : Nat) : Graph :=
  if G.any (fun p => p.1 == u) then G else G ++ [(u, [])]

/-- Record `b` in `a`'s adjacency list if not present (one half of
`G.add_edge(a, b)`: `adj[a][b] = {}` on a dict). -/
def insertAdj (G : Graph) (a b : Nat) : Graph :=
  G.map (fun p => (p.1, if p.1 == a then (if b ∈ p.2 then p.2 else p.2 ++ [b]) else p.2))

/-- networkx `G.add_edge(u, v)`: add both endpoints as nodes if missing and
record the edge in both adjacency dicts (for `u = v` networkx stores the
self-loop entry once, which `insertAdj` reproduces). -/
def addEdge (G : Graph) (u v : Nat) : Graph :=
  insertAdj (insertAdj (addNode (addNode G u) v) u v) v u

/-- topologies/utils.py `edges_df_to_nx`: build the graph by calling
`G.add_edge(r.src, r.trg)` on every row of the edge table, in row order.
There is no validation of any kind in the source. -/
def edges_df_to_nx (rows : List (Nat × Nat)) : Graph :=
  rows.foldl (fun G r => addEdge G r.1 r.2) []

/-- networkx `G.remove_edge`-style single removal as performed by
`G.remove_edges_from` for the pair `(a, b)`: delete `b` from `a`'s
adjacency dict and `a` from `b`'s (a no-op on a missing edge, matching
`remove_edges_from`'s silent skip). -/
def removeEdge (G : Graph) (a b : Nat) : Graph :=
  G.map (fun p =>
    (p.1,
      if p.1 == a then p.2.filter (fun x => x != b)
      else if p.1 == b then p.2.filter (fun x => x != a)
      else p.2))

/-- networkx `G.remove_edges_from(l)`. -/
def removeEdges (G : Graph) (l : List (Nat × Nat)) : Graph :=
  l.foldl (fun g e => removeEdge g e.1 e.2) G

/-- networkx `G.remove_node(x)`: delete the entry of `x` and delete `x`
from every other adjacency list.  (networkx only touches the lists of the
nodes adjacent to `x`; on the symmetric graphs the topology code
manipulates, `x` occurs in exactly those lists, so filtering every list is
the same operation.) -/
def removeNode (G : Graph) (x : Nat) : Graph :=
  (G.filter (fun p => p.1 != x)).map (fun p => (p.1, p.2.filter (fun y => y != x)))

/-- networkx `G.remove_nodes_from(l)`. -/
def removeNodes (G : Graph) (l : List Nat) : Graph :=
  l.foldl removeNode G

/-- The canonical pair list of the graph: each adjacency record `(u, v)`
with `u ≤ v`.  On a symmetric, duplicate-free graph this enumerates every
undirected edge exactly once (self-loops once), so its length models
networkx `G.number_of_edges()`. -/
def edgePairs (G : Graph) : List (Nat × Nat) :=
  G.flatMap (fun p => (p.2.filter (fun v => p.1 ≤ v)).map (fun v => (p.1, v)))

/-- Models networkx `G.number_of_edges()`. -/
def numberOfEdges (G : Graph) : Nat := (edgePairs G).length

/-- Node entries are duplicate-free (a dict cannot repeat a key). -/
def NodesND (G : Graph) : Prop := (nodesOf G).Nodup

/-- Each adjacency list is duplicate-free (an adjacency dict cannot repeat
a key). -/
def AdjND (G : Graph) : Prop := ∀ p ∈ G, p.2.Nodup

/-- Adjacency is symmetric, as networkx maintains for undirected graphs. -/
def Symm (G : Graph) : Prop := ∀ p ∈ G, ∀ v ∈ p.2, p.1 ∈ adj G v

/-- Every recorded neighbour is a node of the graph (networkx invariant). -/
def Closed (G : Graph) : Prop := ∀ p ∈ G, ∀ v ∈ p.2, v ∈ nodesOf G

/-- The well-formedness invariant networkx maintains for every graph. -/
def WF (G : Graph) : Prop := NodesND G ∧ AdjND G ∧ Symm G ∧ Closed G

/-- No self-loops: the spec's data model (§3) requires `u ≠ v` for every
edge. -/
def NoSelfLoops (G : Graph) : Prop := ∀ p ∈ G, p.1 ∉ p.2

instance (G : Graph) : Decidable (NodesND G) := by unfold NodesND; infer_instance
instance (G : Graph) : Decidable (AdjND G) := by unfold AdjND; infer_instance
instance (G : Graph) : Decidable (Symm G) := by unfold Symm; infer_instance
instance (G : Graph) : Decidable (Closed G) := by unfold Closed; infer_instance
instance (G : Graph) : Decidable (WF G) := by unfold WF; infer_instance
instance (G : Graph) : Decidable (NoSelfLoops G) := by unfold NoSelfLoops; infer_instance

/-- Total number of adjacency records; a crude size bound used to pick
breadth-first-search fuel that provably exceeds the number of loop
iterations the Python `while` can perform. -/
def graphSize (G : Graph) : Nat := G.foldl (fun a p => a + p.2.length) 0

/-! ## fhs.py -/

/-- fhs.py line 54 comparison key: Python `max` with
`key=lambda n: (G.degree(n), -hash(n))` keeps the first node whose key is
lexicographically maximal; a later node replaces it only on a strictly
greater key.  On the integer node ids of the data sets, Python's `hash` is
the identity, so the key is `(degree, -n)`. -/
def fhsKeyGt (G : Graph) (n b : Nat) : Bool :=
  decide (degree G b < degree G n) ||
    (decide (degree G n = degree G b) && decide (-(b : Int) < -(n : Int)))

/-- fhs.py line 54: `max(G.nodes(), key=lambda n: (G.degree(n), -hash(n)))`;
`none` exactly when the graph has no nodes (where Python `max` would
raise, a state the source guards against on line 49). -/
def selectMax (G : Graph) : Option Nat :=
  (nodesOf G).foldl
    (fun acc n =>
      match acc with
      | none => some n
      | some b => if fhsKeyGt G n b then some n else some b)
    none

/-- Inner `for nb in G.neighbors(cur)` of `bfs_collect_m`: state is
`(visited, queue, collected)`; a newly visited neighbour is appended to all
three, and the `for` loop breaks as soon as `collected` reaches `m_max`. -/
def bfsScan (mMax : Nat) : List Nat → List Nat × List Nat × List Nat →
    List Nat × List Nat × List Nat
  | [], s => s
  | nb :: rest, (visited, q, collected) =>
    if nb ∈ visited then bfsScan mMax rest (visited, q, collected)
    else
      let s2 := (visited ++ [nb], q ++ [nb], collected ++ [nb])
      if mMax ≤ s2.2.2.length then s2 else bfsScan mMax rest s2

/-- The `while q and len(collected) < m_max` loop of `bfs_collect_m`.  The
fuel argument strictly exceeds the number of iterations the Python loop
can perform (each iteration pops one queue element and at most
`graphSize` + 1 elements are ever enqueued), so the embedding computes the
same list the source does. -/
def bfsLoop (G : Graph) (mMax : Nat) : Nat → List Nat × List Nat × List Nat → List Nat
  | 0, s => s.2.2
  | fuel+1, (visited, q, collected) =>
    match q with
    | [] => collected
    | cur :: q2 =>
      if collected.length < mMax then
        bfsLoop G mMax fuel (bfsScan mMax (adj G cur) (visited, q2, collected))
      else collected

/-- fhs.py `bfs_collect_m`: BFS from `startNode` collecting at most `m_max`
distinct nodes (including the start), in visit order, root first. -/
def bfs_collect_m (G : Graph) (startNode : Nat) (mMax : Nat) : List Nat :=
  bfsLoop G mMax (graphSize G + 2) ([startNode], [startNode], [startNode])

/-- State of one `create_fhs` run.  `caller` is the caller-owned binding
`G_input`; `G` is the working copy bound by `G = G_input.copy()` on
fhs.py line 40.  Every mutation in the loop body targets `G`; the field
`caller` records what the caller still sees. -/
structure FhsState where
  caller : Graph
  G : Graph
  hyperedges : List (List Nat)
  memb : List (Nat × List Nat)
deriving Repr, DecidableEq

/-- networkx `G_input.copy()`: a fresh graph object with the same nodes,
edges and insertion orders. -/
def copyGraph (G : Graph) : Graph := G.map (fun p => (p.1, p.2))

/-- fhs.py lines 66-67: `for v in Ve_set: node_to_hyperedges[v].append(hed_idx)`.
Every `v` the working graph can produce already has an entry (the dict is
initialised with every node of `G_input` on line 43), so updating the
existing entries is the whole effect. -/
def membAppendAll (memb : List (Nat × List Nat)) (Ve : List Nat) (idx : Nat) :
    List (Nat × List Nat) :=
  memb.map (fun p => (p.1, if p.1 ∈ Ve then p.2 ++ [idx] else p.2))

/-- fhs.py line 71: `[(u, v) for u in Ve_set for v in G.neighbors(u) if v in Ve_set and u < v]`. -/
def internalEdges (G : Graph) (Ve : List Nat) : List (Nat × Nat) :=
  Ve.flatMap (fun u =>
    ((adj G u).filter (fun v => decide (v ∈ Ve) && decide (u < v))).map (fun v => (u, v)))

/-- Body of one iteration of the `create_fhs` main loop (fhs.py lines
56-77), after the highest-degree node has been selected: BFS-collect the
member set, emit it as a hyperedge, record memberships, remove the
internal edges from the working graph and then remove the nodes left with
degree 0. -/
def fhsBody (m : Nat) (s : FhsState) (node : Nat) : FhsState :=
  let Ve := bfs_collect_m s.G node m
  let hedIdx := s.hyperedges.length
  let heds := s.hyperedges ++ [Ve]
  let memb := membAppendAll s.memb Ve hedIdx
  let G1 := removeEdges s.G (internalEdges s.G Ve)
  let iso := (G1.filter (fun p => degree G1 p.1 == 0)).map Prod.fst
  let G2 := removeNodes G1 iso
  ⟨s.caller, G2, heds, memb⟩

/-- One iteration of the `create_fhs` main loop: `none` when the loop
exits (no edges left, or one of the two defensive `break`s on lines 49-50
and 59-61 fires), otherwise the successor state. -/
def fhsStep (m : Nat) (s : FhsState) : Option FhsState :=
  if numberOfEdges s.G = 0 then none
  else if s.G.length = 0 then none
  else
    match selectMax s.G with
    | none => none
    | some node =>
      if (bfs_collect_m s.G node m).isEmpty then none
      else some (fhsBody m s node)

/-- The `while G.number_of_edges() > 0` loop of `create_fhs`, run with the
given iteration budget; `none` means the budget was exhausted while the
source loop would still be iterating. -/
def fhsLoop (m : Nat) : Nat → FhsState → Option FhsState
  | 0, s =>
    match fhsStep m s with
    | none => some s
    | some _ => none
  | fuel+1, s =>
    match fhsStep m s with
    | none => some s
    | some s2 => fhsLoop m fuel s2

/-- Initial state of `create_fhs`: the working copy of line 40 and the
membership dict `{n: [] for n in G_input.nodes()}` of line 43. -/
def initFhsState (G : Graph) : FhsState :=
  ⟨G, copyGraph G, [], G.map (fun p => (p.1, []))⟩

/-- fhs.py `create_fhs` (hypergraph-construction part, lines 39-77), with
an iteration budget of `number_of_edges` — the bound the spec asserts for
the loop.  `some s` is the state at loop exit; `none` records that the
source loop still wants to iterate after `|E|` iterations. -/
def create_fhs (G_input : Graph) (mMax : Nat) : Option FhsState :=
  fhsLoop mMax (numberOfEdges G_input) (initFhsState G_input)

/-! ## nch.py -/

/-- nch.py line 21: `max(H.degree(), key=lambda x: x[1])` — iterate the
degree view in node order keeping the first pair with maximal degree. -/
def selectMaxDeg (H : Graph) : Option (Nat × Nat) :=
  H.foldl
    (fun acc p =>
      match acc with
      | none => some (p.1, degree H p.1)
      | some bd => if bd.2 < degree H p.1 then some (p.1, degree H p.1) else some bd)
    none

/-- Python `cover.add(node)` on a set, insertion-ordered. -/
def addCover (cover : List Nat) (n : Nat) : List Nat :=
  if n ∈ cover then cover else cover ++ [n]

/-- The `while H.number_of_edges() > 0` loop of `greedy_vertex_cover`
(nch.py lines 19-26).  Each iteration removes the selected node from `H`,
so the node count strictly decreases and fuel `H.length` always exceeds
the number of iterations the Python loop performs. -/
def gvcLoop : Nat → Graph → List Nat → Option Nat → List Nat
  | 0, _, cover, _ => cover
  | fuel+1, H, cover, maxNodes =>
    if numberOfEdges H = 0 then cover
    else
      match selectMaxDeg H with
      | none => cover
      | some nd =>
        let cover2 := addCover cover nd.1
        let H2 := removeNode H nd.1
        match maxNodes with
        | some mn => if mn ≤ cover2.length then cover2 else gvcLoop fuel H2 cover2 maxNodes
        | none => gvcLoop fuel H2 cover2 maxNodes

/-- nch.py `greedy_vertex_cover`: work on `H = G.copy()`, repeatedly take
a maximum-degree node into the cover and delete it, until no edges remain
or the optional `max_nodes` cap is reached. -/
def greedy_vertex_cover (G : Graph) (maxNodes : Option Nat) : List Nat :=
  gvcLoop G.length (copyGraph G) [] maxNodes

/-- nch.py `defaultdict(list)` update
`node_to_hyperedges[v].append(idx)`: append to the existing entry or
create one. -/
def membAppendDD (memb : List (Nat × List Nat)) (v : Nat) (idx : Nat) :
    List (Nat × List Nat) :=
  if memb.any (fun p => p.1 == v) then
    memb.map (fun p => (p.1, if p.1 == v then p.2 ++ [idx] else p.2))
  else memb ++ [(v, [idx])]

/-- nch.py lines 43-50: `for idx, c in enumerate(sorted(list(cover)))` —
the enumerate counter `idx` advances on every cover node, but a cover node
whose neighbour set is empty contributes no hyperedge (`continue`). -/
def nchFold (G : Graph) :
    List Nat → Nat → List (List Nat) × List (Nat × List Nat) →
    List (List Nat) × List (Nat × List Nat)
  | [], _, acc => acc
  | c :: rest, idx, (heds, memb) =>
    let neighs := adj G c
    if neighs.isEmpty then nchFold G rest (idx + 1) (heds, memb)
    else
      nchFold G rest (idx + 1)
        (heds ++ [neighs], neighs.foldl (fun mm v => membAppendDD mm v idx) memb)

/-- nch.py `create_nch` (the capacity map it returns is empty; callers run
the script-level redistribution afterwards). -/
def create_nch (G : Graph) (maxCoverSize : Option Nat) :
    List (List Nat) × List (Nat × List Nat) :=
  nchFold G ((greedy_vertex_cover G maxCoverSize).mergeSort (fun a b => decide (a ≤ b))) 0 ([], [])

/-! ## utils.py rollup builder -/

/-- utils.py `create_lnrollup_hyperedges`: one hyperedge holding every
node, every node's membership list is `[0]`, every allocation `1.0`. -/
def create_lnrollup_hyperedges (G : Graph) :
    List (List Nat) × List (Nat × List Nat) × List ((Nat × Nat) × ℚ) :=
  ([nodesOf G], G.map (fun p => (p.1, [0])), G.map (fun p => ((p.1, 0), (1 : ℚ))))

/-! ## supernodes.py -/

/-- supernodes.py lines 17-22 id map: `int(n)` succeeds on the integer
node ids of the data sets, so the deterministic rank of a node is its own
value (the enumeration-index fallback is for non-numeric labels only). -/
def idMap (n : Nat) : Int := n

/-- Neighbour scan of `two_hop_nodes`: push every unvisited neighbour with
depth `d + 1`. -/
def twoHopScan (d : Nat) (nbrs : List Nat) (vq : List Nat × List (Nat × Nat)) :
    List Nat × List (Nat × Nat) :=
  nbrs.foldl
    (fun vq2 nb => if nb ∈ vq2.1 then vq2 else (vq2.1 ++ [nb], vq2.2 ++ [(nb, d + 1)]))
    vq

/-- The `while q` loop of `two_hop_nodes`; a popped pair at depth ≥ 2 is
skipped (`continue`).  Fuel strictly exceeds the possible pop count. -/
def twoHopLoop (G : Graph) : Nat → List Nat → List (Nat × Nat) → List Nat
  | 0, visited, _ => visited
  | fuel+1, visited, q =>
    match q with
    | [] => visited
    | (cur, d) :: q2 =>
      if 2 ≤ d then twoHopLoop G fuel visited q2
      else
        let vq := twoHopScan d (adj G cur) (visited, q2)
        twoHopLoop G fuel vq.1 vq.2

/-- supernodes.py `two_hop_nodes(n)`: the set of nodes within two hops of
`n`, including `n`, in first-visit order. -/
def two_hop_nodes (G : Graph) (n : Nat) : List Nat :=
  twoHopLoop G (graphSize G + 2) [n] [(n, 0)]

/-- Neighbour scan of `exists_monotone_path`: process `neigh[cur]` in
order; `none` models the `return True` taken on reaching `v`, otherwise
the updated `(queue, seen_states)`. -/
def empScan (G : Graph) (v : Nat) (VnSet : List Nat) (prev : Option Int) (depth : Nat) :
    List Nat → List (Nat × Option Int × Nat) → List (Nat × Int) →
    Option (List (Nat × Option Int × Nat) × List (Nat × Int))
  | [], q, seen => some (q, seen)
  | nb :: rest, q, seen =>
    if nb ∉ VnSet then empScan G v VnSet prev depth rest q seen
    else if nb == v then none
    else
      match prev with
      | none =>
        let st : Nat × Int := (nb, idMap nb)
        if st ∈ seen then empScan G v VnSet prev depth rest q seen
        else empScan G v VnSet prev depth rest (q ++ [(nb, some st.2, depth + 1)]) (seen ++ [st])
      | some pid =>
        let nbid := idMap nb
        if nbid < pid then
          let st : Nat × Int := (nb, nbid)
          if st ∈ seen then empScan G v VnSet prev depth rest q seen
          else empScan G v VnSet prev depth rest (q ++ [(nb, some nbid, depth + 1)]) (seen ++ [st])
        else empScan G v VnSet prev depth rest q seen

/-- The `while q` loop of `exists_monotone_path`.  Python counts popped
states and gives up (returns `False`) once the count exceeds
`max_states`; the fuel argument is exactly that budget, so running out of
fuel at a pop is precisely the `states_explored > max_states_local` exit. -/
def empLoop (G : Graph) (v : Nat) (VnSet : List Nat) (maxDepth : Nat) :
    Nat → List (Nat × Option Int × Nat) → List (Nat × Int) → Bool
  | _, [], _ => false
  | 0, _ :: _, _ => false
  | fuel+1, (cur, prev, depth) :: q2, seen =>
    if maxDepth ≤ depth then empLoop G v VnSet maxDepth fuel q2 seen
    else
      match empScan G v VnSet prev depth (adj G cur) q2 seen with
      | none => true
      | some qs => empLoop G v VnSet maxDepth fuel qs.1 qs.2

/-- supernodes.py `exists_monotone_path(u, v, Vn_set, max_depth, max_states)`. -/
def exists_monotone_path (G : Graph) (u v : Nat) (VnSet : List Nat)
    (maxDepth maxStates : Nat) : Bool :=
  if u == v then true
  else if !(decide (u ∈ VnSet) && decide (v ∈ VnSet)) then false
  else empLoop G v VnSet maxDepth maxStates [(u, none, 0)] []

/-- All ordered pairs `(l[i], l[j])` with `i < j`, as produced by the
nested index loops over `NGn_list` in the main selection loop. -/
def orderedPairs : List Nat → List (Nat × Nat)
  | [] => []
  | u :: rest => rest.map (fun v => (u, v)) ++ orderedPairs rest

/-- One node's fate in the main selection loop of `select_supernodes`:
`n` is discarded as soon as some neighbour pair is directly connected or
joined by a monotone path inside the two-hop set.  The loop's `break`s
only short-circuit; whether `n` is discarded is exactly this existential. -/
def nodeRemoved (G : Graph) (maxDepth maxStates : Nat) (n : Nat) : Bool :=
  let Vn := two_hop_nodes G n
  (orderedPairs (adj G n)).any (fun uv =>
    decide (uv.2 ∈ adj G uv.1) ||
      (decide (uv.1 ∈ Vn) && decide (uv.2 ∈ Vn) &&
        exists_monotone_path G uv.1 uv.2 Vn maxDepth maxStates))

/-- supernodes.py `select_supernodes`: the surviving nodes.  The source
returns a Python set; utils.py then iterates it with `enumerate`.  We
model that iteration order as node insertion order (for the concrete
small-integer graphs evaluated below, CPython's set order coincides with
it). -/
def select_supernodes (G : Graph) (maxDepth maxStates : Nat) : List Nat :=
  (nodesOf G).filter (fun n => !nodeRemoved G maxDepth maxStates n)

/-- Plain-dict membership append of utils.py (`node_to_hyperedges[v].append(i)`
on a dict pre-seeded with every node). -/
def membAppendOne (memb : List (Nat × List Nat)) (v : Nat) (idx : Nat) :
    List (Nat × List Nat) :=
  memb.map (fun p => (p.1, if p.1 == v then p.2 ++ [idx] else p.2))

/-- utils.py lines 20-27: `for i, s in enumerate(S)` — the counter `i`
advances for every supernode, but a supernode with an empty neighbour set
contributes no hyperedge (`continue`). -/
def snFold (G : Graph) :
    List Nat → Nat → List (List Nat) × List (Nat × List Nat) →
    List (List Nat) × List (Nat × List Nat)
  | [], _, acc => acc
  | s :: rest, i, (heds, memb) =>
    let neighbors := adj G s
    if neighbors.isEmpty then snFold G rest (i + 1) (heds, memb)
    else
      snFold G rest (i + 1)
        (heds ++ [neighbors], neighbors.foldl (fun mm v => membAppendOne mm v i) memb)

/-- utils.py `create_supernode_hyperedges`, including the uniform
`1.0/len(idxs)` capacity map it builds at the end. -/
def create_supernode_hyperedges (G : Graph) :
    List (List Nat) × List (Nat × List Nat) × List ((Nat × Nat) × ℚ) :=
  let S := select_supernodes G 4 5000
  let hm := snFold G S 0 ([], G.map (fun p => (p.1, [])))
  (hm.1, hm.2, hm.2.flatMap (fun p => p.2.map (fun idx => ((p.1, idx), (1 : ℚ) / p.2.length))))

/-! ## Script-level capacity redistribution and clique projection -/

/-- make_fhs_edges.py `compute_node_totals`, read back per node: every row
credits its full capacity to both endpoints (`node_totals[u] += cap;
node_totals[v] += cap`), and a node on no row reads as `0.0`
(`node_totals.get(node, 0.0)`). -/
def compute_node_totals (rows : List (Nat × Nat × ℚ)) (n : Nat) : ℚ :=
  rows.foldl
    (fun acc r => acc + (if r.1 = n then r.2.2 else 0) + (if r.2.1 = n then r.2.2 else 0))
    0

/-- make_fhs_edges.py main(), lines 138-148 (the §4.6 Capacity
Redistributor): for each node with a non-empty membership list, floor a
non-positive total at `1.0` and split it evenly across the node's
hyperedges. -/
def fhs_node_caps (rows : List (Nat × Nat × ℚ)) (n2h : List (Nat × List Nat)) :
    List ((Nat × Nat) × ℚ) :=
  n2h.flatMap (fun p =>
    if p.2.isEmpty then []
    else
      p.2.map (fun idx => ((p.1, idx),
        (if compute_node_totals rows p.1 ≤ 0 then 1 else compute_node_totals rows p.1) /
          (p.2.length : ℚ))))

/-- Dict lookup on a `(node, hyperedge index) → capacity` map. -/
def capLookup (caps : List ((Nat × Nat) × ℚ)) (k : Nat × Nat) : Option ℚ :=
  (caps.find? (fun e => e.1 == k)).map Prod.snd

/-- One output record of the clique projection. -/
structure Row where
  src : Nat
  trg : Nat
  capacity : ℚ
  base_fee : ℚ
  fee_rate : ℚ
  enabled : Bool
deriving Repr, DecidableEq

/-- The row block of make_fhs_edges.py `export_clique_edges_csv` lines
76-85: for each hyperedge, for each member `u` (capacity defaulting to
`1.0` when `(u, idx)` is unmapped), a record to every other member. -/
def cliqueRowsFhs (heds : List (List Nat)) (caps : List ((Nat × Nat) × ℚ)) : List Row :=
  heds.enum.flatMap (fun ih =>
    ih.2.flatMap (fun u =>
      let cap := (capLookup caps (u, ih.1)).getD 1
      (ih.2.filter (fun v => v != u)).map (fun v => ⟨u, v, cap, 100, 1, true⟩)))

/-- make_fhs_edges.py `export_clique_edges_csv`: refuse (raising, with the
offending maximal size and the threshold, before any row is built) if some
hyperedge exceeds `warn_threshold`; otherwise return all rows. -/
def export_clique_edges_csv (heds : List (List Nat)) (caps : List ((Nat × Nat) × ℚ))
    (warnThreshold : Nat) : Except (Nat × Nat) (List Row) :=
  let sizes := heds.map List.length
  if !sizes.isEmpty && decide (warnThreshold < sizes.foldl max 0) then
    .error (sizes.foldl max 0, warnThreshold)
  else .ok (cliqueRowsFhs heds caps)

/-- make_nch_edges.py `export_clique`: same guard, with an optional
per-node base-fee profile (`fee_profile.get(u, 100.0)`). -/
def export_clique (heds : List (List Nat)) (caps : List ((Nat × Nat) × ℚ))
    (maxCliqueSize : Nat) (feeProfile : Option (List (Nat × ℚ))) :
    Except (Nat × Nat) (List Row) :=
  let sizes := heds.map List.length
  if !sizes.isEmpty && decide (maxCliqueSize < sizes.foldl max 0) then
    .error (sizes.foldl max 0, maxCliqueSize)
  else
    .ok (heds.enum.flatMap (fun ih =>
      ih.2.flatMap (fun u =>
        let capU := (capLookup caps (u, ih.1)).getD 1
        let baseFee :=
          match feeProfile with
          | some fp => (((fp.find? (fun e => e.1 == u)).map Prod.snd)).getD 100
          | none => 100
        (ih.2.filter (fun v => v != u)).map (fun v => ⟨u, v, capU, baseFee, 1, true⟩))))

/-- hyper_to_edges.py capacity map: the Python dict holds tuple-keyed
entries next to bare-node-keyed entries; `get((u, idx), get(u, 1.0))`
consults them in that order. -/
structure CapMap where
  pairC : List ((Nat × Nat) × ℚ)
  bareC : List (Nat × ℚ)
deriving Repr, DecidableEq

/-- The records member `u` of the hyperedge at position `idx` emits in
hyper_to_edges.py `hyperedges_to_directed_edges_df`: capacity from the
`(u, idx)` key, else from the bare `u` key, else `1.0`; one record per
other member. -/
def memberRows (cm : CapMap) (baseFee feeRate : ℚ) (idx : Nat) (hed : List Nat)
    (u : Nat) : List Row :=
  let cap := (((cm.pairC.find? (fun e => e.1 == (u, idx))).map Prod.snd)).getD
    ((((cm.bareC.find? (fun e => e.1 == u)).map Prod.snd)).getD 1)
  (hed.filter (fun v => v != u)).map (fun v => ⟨u, v, cap, baseFee, feeRate, true⟩)

/-- hyper_to_edges.py `hyperedges_to_directed_edges_df`. -/
def hyperedges_to_directed_edges_df (heds : List (List Nat)) (cm : CapMap)
    (baseFee feeRate : ℚ) : List Row :=
  heds.enum.flatMap (fun ih => ih.2.flatMap (memberRows cm baseFee feeRate ih.1 ih.2))

/-! ## The membership-index consistency invariant (claim C5) -/

/-- The spec's membership-index invariant (§3): every index in a node's
membership list addresses an existing hyperedge, that hyperedge contains
the node, and no index repeats within one node's list. -/
def ConsistentMemb (heds : List (List Nat)) (memb : List (Nat × List Nat)) : Prop :=
  ∀ p ∈ memb, p.2.Nodup ∧ ∀ i ∈ p.2, i < heds.length ∧ p.1 ∈ heds.getD i []

instance (heds : List (List Nat)) (memb : List (Nat × List Nat)) :
    Decidable (ConsistentMemb heds memb) := by
  unfold ConsistentMemb; infer_instance

/-! ## Basic lemmas about the graph model -/

/-- The dict entry of node `u`, if any. -/
def adjEntry (G : Graph) (u : Nat) : Option (Nat × List Nat) :=
  G.find? (fun p => p.1 == u)

theorem adj_eq_entry (G : Graph) (u : Nat) :
    adj G u = ((adjEntry G u).map Prod.snd).getD [] := by
  unfold adj adjEntry
  cases G.find? (fun p => p.1 == u) <;> rfl

theorem adjEntry_mem {G : Graph} {u : Nat} {p : Nat × List Nat}
    (h : adjEntry G u = some p) : p ∈ G ∧ p.1 = u := by
  refine ⟨List.mem_of_find?_eq_some h, ?_⟩
  have := List.find?_some h
  simpa using this

theorem adjEntry_eq_none {G : Graph} {u : Nat} (h : adjEntry G u = none) :
    adj G u = [] := by
  rw [adj_eq_entry, h]; rfl

theorem adj_eq_of_entry {G : Graph} {u : Nat} {p : Nat × List Nat}
    (h : adjEntry G u = some p) : adj G u = p.2 := by
  rw [adj_eq_entry, h]; rfl

theorem mem_adj_entry {G : Graph} {u v : Nat} (h : v ∈ adj G u) :
    ∃ p, adjEntry G u = some p ∧ p ∈ G ∧ p.1 = u ∧ v ∈ p.2 := by
  cases he : adjEntry G u with
  | none => rw [adjEntry_eq_none he] at h; cases h
  | some p =>
    obtain ⟨hm, hk⟩ := adjEntry_mem he
    exact ⟨p, rfl, hm, hk, by rw [adj_eq_of_entry he] at h; exact h⟩

theorem find?_key_eq_some_of_mem {G : Graph} {p : Nat × List Nat}
    (hnd : NodesND G) (hp : p ∈ G) : adjEntry G p.1 = some p := by
  induction G with
  | nil => cases hp
  | cons q t ih =>
    rcases List.mem_cons.1 hp with h | hp2
    · subst h
      unfold adjEntry List.find?
      simp
    · have hq : q.1 ≠ p.1 := by
        intro he
        have h1 : p.1 ∈ (t.map Prod.fst) := List.mem_map_of_mem Prod.fst hp2
        have hnd2 : ¬ q.1 ∈ (t.map Prod.fst) := by
          have h2 := hnd
          unfold NodesND nodesOf at h2
          simp only [List.map_cons, List.nodup_cons] at h2
          exact h2.1
        rw [he] at hnd2
        exact hnd2 h1
      have hnd3 : NodesND t := by
        have h2 := hnd
        unfold NodesND nodesOf at h2 ⊢
        simp only [List.map_cons, List.nodup_cons] at h2
        exact h2.2
      unfold adjEntry List.find?
      have hb : (q.1 == p.1) = false := by simpa using hq
      rw [hb]
      exact ih hnd3 hp2

theorem adj_of_mem {G : Graph} {p : Nat × List Nat} (hnd : NodesND G) (hp : p ∈ G) :
    adj G p.1 = p.2 := adj_eq_of_entry (find?_key_eq_some_of_mem hnd hp)

/-- On a `Symm` graph the adjacency relation is symmetric. -/
theorem symmA {G : Graph} (h : Symm G) {u v : Nat} (hv : v ∈ adj G u) :
    u ∈ adj G v := by
  obtain ⟨p, _, hm, hk, hvp⟩ := mem_adj_entry hv
  have := h p hm v hvp
  rwa [hk] at this

theorem symm_of_symmA {G : Graph} (hnd : NodesND G)
    (h : ∀ a b, b ∈ adj G a → a ∈ adj G b) : Symm G := by
  intro p hp v hv
  exact h p.1 v (by rw [adj_of_mem hnd hp]; exact hv)

theorem adj_nodup {G : Graph} (h : AdjND G) (u : Nat) : (adj G u).Nodup := by
  cases he : adjEntry G u with
  | none => rw [adjEntry_eq_none he]; exact List.nodup_nil
  | some p =>
    rw [adj_eq_of_entry he]
    exact h p (adjEntry_mem he).1

theorem adjnd_of_adjA {G : Graph} (hnd : NodesND G)
    (h : ∀ u, (adj G u).Nodup) : AdjND G := by
  intro p hp
  have := h p.1
  rwa [adj_of_mem hnd hp] at this

theorem nsl_adj {G : Graph} (h : NoSelfLoops G) (u : Nat) : u ∉ adj G u := by
  intro hm
  obtain ⟨p, _, hmem, hk, hup⟩ := mem_adj_entry hm
  exact h p hmem (hk ▸ hup)

theorem nsl_of_nslA {G : Graph} (hnd : NodesND G)
    (h : ∀ u, u ∉ adj G u) : NoSelfLoops G := by
  intro p hp hm
  exact h p.1 (by rw [adj_of_mem hnd hp]; exact hm)

theorem closed_adj {G : Graph} (h : Closed G) {u v : Nat} (hv : v ∈ adj G u) :
    v ∈ nodesOf G := by
  obtain ⟨p, _, hm, _, hvp⟩ := mem_adj_entry hv
  exact h p hm v hvp

theorem closed_of_closedA {G : Graph} (hnd : NodesND G)
    (h : ∀ u v, v ∈ adj G u → v ∈ nodesOf G) : Closed G := by
  intro p hp v hv
  exact h p.1 v (by rw [adj_of_mem hnd hp]; exact hv)

theorem mem_nodes_of_adj {G : Graph} {u v : Nat} (hv : v ∈ adj G u) :
    u ∈ nodesOf G := by
  obtain ⟨p, _, hm, hk, _⟩ := mem_adj_entry hv
  exact hk ▸ List.mem_map_of_mem Prod.fst hm

/-! Adjacency after the update operations. -/

theorem adjEntry_map_shape (f : Nat × List Nat → List Nat) (G : Graph) (u : Nat) :
    adjEntry (G.map (fun p => (p.1, f p))) u =
      (adjEntry G u).map (fun p => (p.1, f p)) := by
  unfold adjEntry
  exact List.find?_map (fun p => (p.1, f p)) G

theorem adj_map_shape (f : Nat × List Nat → List Nat) (G : Graph) (u : Nat) :
    adj (G.map (fun p => (p.1, f p))) u =
      ((adjEntry G u).map f).getD [] := by
  rw [adj_eq_entry, adjEntry_map_shape]
  cases adjEntry G u <;> rfl

theorem nodesOf_map_shape (f : Nat × List Nat → List Nat) (G : Graph) :
    nodesOf (G.map (fun p => (p.1, f p))) = nodesOf G := by
  unfold nodesOf
  rw [List.map_map]
  rfl

theorem adjEntry_filterKey {G : Graph} {x u : Nat} (h : u ≠ x) :
    adjEntry (G.filter (fun p => p.1 != x)) u = adjEntry G u := by
  induction G with
  | nil => rfl
  | cons q t ih =>
    by_cases hq : q.1 = x
    · have h1 : (q.1 != x) = false := by simpa using hq
      have h2 : (q.1 == u) = false := by
        simp only [beq_eq_false_iff_ne, ne_eq]
        intro he
        rw [he] at hq
        exact h hq
      unfold adjEntry at ih ⊢
      simp only [List.filter, h1, List.find?, h2]
      exact ih
    · have h1 : (q.1 != x) = true := by simpa using hq
      unfold adjEntry at ih ⊢
      simp only [List.filter, h1, List.find?]
      cases hqu : (q.1 == u) with
      | true => rfl
      | false => exact ih

theorem adjEntry_filterKey_self (G : Graph) (x : Nat) :
    adjEntry (G.filter (fun p => p.1 != x)) x = none := by
  unfold adjEntry
  rw [List.find?_eq_none]
  intro p hp h
  have h2 := (List.mem_filter.1 hp).2
  simp only [bne_iff_ne, ne_eq] at h2
  exact h2 (by simpa using h)

theorem adj_removeNode (G : Graph) (x u : Nat) :
    adj (removeNode G x) u =
      if u = x then [] else (adj G u).filter (fun y => y != x) := by
  unfold removeNode
  rw [adj_map_shape]
  by_cases h : u = x
  · subst h
    rw [adjEntry_filterKey_self]
    simp
  · rw [adjEntry_filterKey h, adj_eq_entry]
    cases adjEntry G u <;> simp [h]

theorem adj_removeEdge (G : Graph) (a b u : Nat) :
    adj (removeEdge G a b) u =
      if u = a then (adj G u).filter (fun x => x != b)
      else if u = b then (adj G u).filter (fun x => x != a)
      else adj G u := by
  unfold removeEdge
  rw [adj_map_shape, adj_eq_entry]
  cases he : adjEntry G u with
  | none => by_cases h1 : u = a <;> by_cases h2 : u = b <;> simp [h1, h2]
  | some p =>
    have hk := (adjEntry_mem he).2
    by_cases h1 : u = a <;> by_cases h2 : u = b <;>
      simp [hk, h1, h2]

theorem adj_removeEdge_sublist (G : Graph) (a b u : Nat) :
    List.Sublist (adj (removeEdge G a b) u) (adj G u) := by
  rw [adj_removeEdge]
  split_ifs with h1 h2
  · exact List.filter_sublist _
  · exact List.filter_sublist _
  · exact List.Sublist.refl _

theorem adj_removeEdges_sublist (G : Graph) (l : List (Nat × Nat)) (u : Nat) :
    List.Sublist (adj (removeEdges G l) u) (adj G u) := by
  induction l generalizing G with
  | nil => exact List.Sublist.refl _
  | cons e t ih =>
    unfold removeEdges at ih ⊢
    rw [List.foldl_cons]
    exact (ih (removeEdge G e.1 e.2)).trans (adj_removeEdge_sublist G e.1 e.2 u)

theorem not_hasEdge_removeEdge {G : Graph} {u v : Nat} (h : v ∉ adj G u) (a b : Nat) :
    v ∉ adj (removeEdge G a b) u :=
  fun hm => h ((adj_removeEdge_sublist G a b u).mem hm)

theorem not_hasEdge_removeEdges {G : Graph} {u v : Nat} (h : v ∉ adj G u)
    (l : List (Nat × Nat)) : v ∉ adj (removeEdges G l) u :=
  fun hm => h ((adj_removeEdges_sublist G l u).mem hm)

theorem removeEdge_kills (G : Graph) (a b : Nat) :
    b ∉ adj (removeEdge G a b) a ∧ a ∉ adj (removeEdge G a b) b := by
  constructor
  · rw [adj_removeEdge]
    simp only [if_pos rfl]
    intro hm
    have := (List.mem_filter.1 hm).2
    simp at this
  · rw [adj_removeEdge]
    by_cases h : b = a
    · subst h
      simp only [if_pos rfl]
      intro hm
      have := (List.mem_filter.1 hm).2
      simp at this
    · simp only [if_neg h, if_pos rfl]
      intro hm
      have := (List.mem_filter.1 hm).2
      simp at this

/-- Every pair listed in `l` is absent from `removeEdges G l` (in both
orientations). -/
theorem removeEdges_kills {l : List (Nat × Nat)} {e : Nat × Nat} (he : e ∈ l)
    (G : Graph) :
    e.2 ∉ adj (removeEdges G l) e.1 ∧ e.1 ∉ adj (removeEdges G l) e.2 := by
  induction l generalizing G with
  | nil => cases he
  | cons f t ih =>
    unfold removeEdges
    rw [List.foldl_cons]
    rcases List.mem_cons.1 he with h | h
    · subst h
      have hk := removeEdge_kills G e.1 e.2
      exact ⟨not_hasEdge_removeEdges hk.1 t, not_hasEdge_removeEdges hk.2 t⟩
    · exact ih h (removeEdge G f.1 f.2)

/-- An edge not mentioned in `l` survives `removeEdges`. -/
theorem removeEdges_keeps {G : Graph} {u v : Nat} (hm : v ∈ adj G u)
    {l : List (Nat × Nat)}
    (h : ∀ e ∈ l, ¬(e.1 = u ∧ e.2 = v) ∧ ¬(e.1 = v ∧ e.2 = u)) :
    v ∈ adj (removeEdges G l) u := by
  induction l generalizing G with
  | nil => exact hm
  | cons f t ih =>
    unfold removeEdges
    rw [List.foldl_cons]
    refine ih ?_ (fun e hme => h e (List.mem_cons_of_mem f hme))
    have hf := h f (List.mem_cons_self f t)
    rw [adj_removeEdge]
    by_cases h1 : u = f.1
    · rw [if_pos h1]
      refine List.mem_filter.2 ⟨hm, ?_⟩
      simp only [bne_iff_ne, ne_eq]
      intro hv
      exact hf.1 ⟨h1.symm, hv.symm⟩
    · rw [if_neg h1]
      by_cases h2 : u = f.2
      · rw [if_pos h2]
        refine List.mem_filter.2 ⟨hm, ?_⟩
        simp only [bne_iff_ne, ne_eq]
        intro hv
        exact hf.2 ⟨hv.symm, h2.symm⟩
      · rw [if_neg h2]
        exact hm

/-! Well-formedness is preserved by the update operations. -/

theorem nodesOf_removeEdge (G : Graph) (a b : Nat) :
    nodesOf (removeEdge G a b) = nodesOf G :=
  nodesOf_map_shape _ G

theorem nodesOf_removeNode (G : Graph) (x : Nat) :
    nodesOf (removeNode G x) = (nodesOf G).filter (fun y => y != x) := by
  unfold removeNode
  rw [nodesOf_map_shape]
  unfold nodesOf
  rw [List.filter_map]
  rfl

theorem WF_removeEdge {G : Graph} (h : WF G) (a b : Nat) : WF (removeEdge G a b) := by
  obtain ⟨hnd, hand, hsym, hcl⟩ := h
  have hnd2 : NodesND (removeEdge G a b) := by
    unfold NodesND
    rw [nodesOf_removeEdge]; exact hnd
  refine ⟨hnd2, ?_, ?_, ?_⟩
  · refine adjnd_of_adjA hnd2 (fun u => ?_)
    exact ((adj_removeEdge_sublist G a b u)).nodup (adj_nodup hand u)
  · refine symm_of_symmA hnd2 (fun u v hv => ?_)
    rw [adj_removeEdge] at hv
    rw [adj_removeEdge]
    by_cases h1 : u = a
    · rw [if_pos h1] at hv
      obtain ⟨hv1, hv2⟩ := List.mem_filter.1 hv
      simp only [bne_iff_ne, ne_eq] at hv2
      have hu : u ∈ adj G v := symmA hsym hv1
      by_cases hva : v = a
      · rw [if_pos hva]
        refine List.mem_filter.2 ⟨hu, ?_⟩
        simp only [bne_iff_ne, ne_eq]
        intro he
        exact hv2 (by rw [hva, ← h1]; exact he)
      · rw [if_neg hva]
        by_cases hvb : v = b
        · exact absurd hvb hv2
        · rw [if_neg hvb]; exact hu
    · rw [if_neg h1] at hv
      by_cases h2 : u = b
      · rw [if_pos h2] at hv
        obtain ⟨hv1, hv2⟩ := List.mem_filter.1 hv
        simp only [bne_iff_ne, ne_eq] at hv2
        have hu : u ∈ adj G v := symmA hsym hv1
        by_cases hva : v = a
        · exact absurd hva hv2
        · rw [if_neg hva]
          by_cases hvb : v = b
          · rw [if_pos hvb]
            refine List.mem_filter.2 ⟨hu, ?_⟩
            simp only [bne_iff_ne, ne_eq]
            intro he
            exact hv2 (by rw [hvb, ← h2]; exact he)
          · rw [if_neg hvb]; exact hu
      · rw [if_neg h2] at hv
        have hu : u ∈ adj G v := symmA hsym hv
        by_cases hva : v = a
        · rw [if_pos hva]
          refine List.mem_filter.2 ⟨hu, ?_⟩
          simp only [bne_iff_ne, ne_eq]
          exact h2
        · rw [if_neg hva]
          by_cases hvb : v = b
          · rw [if_pos hvb]
            refine List.mem_filter.2 ⟨hu, ?_⟩
            simp only [bne_iff_ne, ne_eq]
            exact h1
          · rw [if_neg hvb]; exact hu
  · refine closed_of_closedA hnd2 (fun u v hv => ?_)
    have := (adj_removeEdge_sublist G a b u).mem hv
    rw [nodesOf_removeEdge]
    exact closed_adj hcl this

theorem NSL_removeEdge {G : Graph} (hnd : NodesND G) (h : NoSelfLoops G) (a b : Nat) :
    NoSelfLoops (removeEdge G a b) := by
  refine nsl_of_nslA ?_ (fun u hm => nsl_adj h u ((adj_removeEdge_sublist G a b u).mem hm))
  unfold NodesND
  rw [nodesOf_removeEdge]; exact hnd

theorem WF_removeEdges {G : Graph} (h : WF G) (l : List (Nat × Nat)) :
    WF (removeEdges G l) := by
  induction l generalizing G with
  | nil => exact h
  | cons f t ih =>
    unfold removeEdges
    rw [List.foldl_cons]
    exact ih (WF_removeEdge h f.1 f.2)

theorem NSL_removeEdges {G : Graph} (hnd : NodesND G) (h : NoSelfLoops G)
    (l : List (Nat × Nat)) : NoSelfLoops (removeEdges G l) := by
  induction l generalizing G with
  | nil => exact h
  | cons f t ih =>
    unfold removeEdges
    rw [List.foldl_cons]
    refine ih ?_ (NSL_removeEdge hnd h f.1 f.2)
    unfold NodesND
    rw [nodesOf_removeEdge]; exact hnd

theorem WF_removeNode {G : Graph} (h : WF G) (x : Nat) : WF (removeNode G x) := by
  obtain ⟨hnd, hand, hsym, hcl⟩ := h
  have hnd2 : NodesND (removeNode G x) := by
    unfold NodesND
    rw [nodesOf_removeNode]
    exact hnd.filter _
  refine ⟨hnd2, ?_, ?_, ?_⟩
  · refine adjnd_of_adjA hnd2 (fun u => ?_)
    rw [adj_removeNode]
    by_cases h1 : u = x
    · simp [h1]
    · rw [if_neg h1]
      exact (List.filter_sublist _).nodup (adj_nodup hand u)
  · refine symm_of_symmA hnd2 (fun u v hv => ?_)
    rw [adj_removeNode] at hv
    by_cases h1 : u = x
    · rw [if_pos h1] at hv; cases hv
    · rw [if_neg h1] at hv
      obtain ⟨hv1, hv2⟩ := List.mem_filter.1 hv
      simp only [bne_iff_ne, ne_eq] at hv2
      rw [adj_removeNode, if_neg hv2]
      refine List.mem_filter.2 ⟨symmA hsym hv1, ?_⟩
      simp only [bne_iff_ne, ne_eq]
      exact h1
  · refine closed_of_closedA hnd2 (fun u v hv => ?_)
    rw [adj_removeNode] at hv
    by_cases h1 : u = x
    · rw [if_pos h1] at hv; cases hv
    · rw [if_neg h1] at hv
      obtain ⟨hv1, hv2⟩ := List.mem_filter.1 hv
      rw [nodesOf_removeNode]
      exact List.mem_filter.2 ⟨closed_adj hcl hv1, hv2⟩

theorem NSL_removeNode {G : Graph} (hnd : NodesND G) (h : NoSelfLoops G) (x : Nat) :
    NoSelfLoops (removeNode G x) := by
  have hnd2 : NodesND (removeNode G x) := by
    unfold NodesND
    rw [nodesOf_removeNode]
    exact hnd.filter _
  refine nsl_of_nslA hnd2 (fun u hm => ?_)
  rw [adj_removeNode] at hm
  by_cases h1 : u = x
  · rw [if_pos h1] at hm; cases hm
  · rw [if_neg h1] at hm
    exact nsl_adj h u (List.mem_filter.1 hm).1

theorem WF_removeNodes {G : Graph} (h : WF G) (l : List Nat) : WF (removeNodes G l) := by
  induction l generalizing G with
  | nil => exact h
  | cons x t ih =>
    unfold removeNodes
    rw [List.foldl_cons]
    exact ih (WF_removeNode h x)

theorem NSL_removeNodes {G : Graph} (hnd : NodesND G) (h : NoSelfLoops G) (l : List Nat) :
    NoSelfLoops (removeNodes G l) := by
  induction l generalizing G with
  | nil => exact h
  | cons x t ih =>
    unfold removeNodes
    rw [List.foldl_cons]
    refine ih ?_ (NSL_removeNode hnd h x)
    unfold NodesND
    rw [nodesOf_removeNode]
    exact hnd.filter _

theorem hasEdge_removeNode {G : Graph} {x u v : Nat} :
    v ∈ adj (removeNode G x) u ↔ u ≠ x ∧ v ≠ x ∧ v ∈ adj G u := by
  rw [adj_removeNode]
  by_cases h1 : u = x
  · simp [h1]
  · rw [if_neg h1]
    constructor
    · intro hm
      obtain ⟨hm1, hm2⟩ := List.mem_filter.1 hm
      simp only [bne_iff_ne, ne_eq] at hm2
      exact ⟨h1, hm2, hm1⟩
    · intro ⟨_, hv, hm⟩
      refine List.mem_filter.2 ⟨hm, ?_⟩
      simp only [bne_iff_ne, ne_eq]
      exact hv

theorem mem_edgePairs {G : Graph} {a b : Nat} :
    (a, b) ∈ edgePairs G ↔ ∃ p ∈ G, p.1 = a ∧ b ∈ p.2 ∧ a ≤ b := by
  unfold edgePairs
  rw [List.mem_flatMap]
  constructor
  · intro ⟨p, hp, hm⟩
    obtain ⟨v, hv, he⟩ := List.mem_map.1 hm
    obtain ⟨hv1, hv2⟩ := List.mem_filter.1 hv
    have he1 : p.1 = a := congrArg Prod.fst he
    have he2 : v = b := congrArg Prod.snd he
    refine ⟨p, hp, he1, ?_, ?_⟩
    · rw [← he2]; exact hv1
    · rw [← he1, ← he2]; simpa using hv2
  · intro ⟨p, hp, h1, h2, h3⟩
    refine ⟨p, hp, List.mem_map.2 ⟨b, List.mem_filter.2 ⟨h2, by simpa [h1] using h3⟩, by rw [h1]⟩⟩

theorem mem_edgePairs_of_adj {G : Graph} {u v : Nat} (hm : v ∈ adj G u)
    (hle : u ≤ v) : (u, v) ∈ edgePairs G := by
  obtain ⟨p, _, hmem, hk, hvp⟩ := mem_adj_entry hm
  exact mem_edgePairs.2 ⟨p, hmem, hk, hvp, hle⟩

theorem adj_of_mem_edgePairs {G : Graph} {a b : Nat} (hnd : NodesND G)
    (h : (a, b) ∈ edgePairs G) : b ∈ adj G a := by
  obtain ⟨p, hp, h1, h2, _⟩ := mem_edgePairs.1 h
  rw [← h1, adj_of_mem hnd hp]
  exact h2

theorem numberOfEdges_eq_zero {G : Graph} (hnd : NodesND G) (hs : Symm G) :
    numberOfEdges G = 0 ↔ ∀ u v, v ∉ adj G u := by
  unfold numberOfEdges
  rw [List.length_eq_zero]
  constructor
  · intro h u v hm
    rcases Nat.le_total u v with hle | hle
    · have := mem_edgePairs_of_adj hm hle
      rw [h] at this; cases this
    · have := mem_edgePairs_of_adj (symmA hs hm) hle
      rw [h] at this; cases this
  · intro h
    cases he : edgePairs G with
    | nil => rfl
    | cons e t =>
      have hm : e ∈ edgePairs G := by rw [he]; exact List.mem_cons_self e t
      have : e.2 ∈ adj G e.1 := adj_of_mem_edgePairs hnd (by simpa using hm)
      exact absurd this (h e.1 e.2)

theorem numberOfEdges_pos_adj {G : Graph} (hnd : NodesND G)
    (h : numberOfEdges G ≠ 0) : ∃ u v, v ∈ adj G u := by
  cases he : edgePairs G with
  | nil => exact absurd (by unfold numberOfEdges; rw [he]; rfl) h
  | cons e t =>
    have hm : e ∈ edgePairs G := by rw [he]; exact List.mem_cons_self e t
    exact ⟨e.1, e.2, adj_of_mem_edgePairs hnd (by simpa using hm)⟩

theorem flatMap_sublist {α β : Type} {l : List α} {f g : α → List β}
    (h : ∀ a ∈ l, List.Sublist (f a) (g a)) :
    List.Sublist (l.flatMap f) (l.flatMap g) := by
  induction l with
  | nil => exact List.Sublist.refl _
  | cons a t ih =>
    rw [List.flatMap_cons, List.flatMap_cons]
    exact List.Sublist.append (h a (List.mem_cons_self a t))
      (ih (fun x hx => h x (List.mem_cons_of_mem a hx)))

theorem edgePairs_map_shape (f : Nat × List Nat → List Nat) (G : Graph) :
    edgePairs (G.map (fun p => (p.1, f p))) =
      G.flatMap (fun p => ((f p).filter (fun v => p.1 ≤ v)).map (fun v => (p.1, v))) := by
  unfold edgePairs
  rw [List.flatMap_map]

theorem edgePairs_removeEdge_sublist (G : Graph) (a b : Nat) :
    List.Sublist (edgePairs (removeEdge G a b)) (edgePairs G) := by
  unfold removeEdge
  rw [edgePairs_map_shape]
  refine flatMap_sublist (fun p _ => ?_)
  refine List.Sublist.map _ (List.Sublist.filter _ ?_)
  split_ifs
  · exact List.filter_sublist _
  · exact List.filter_sublist _
  · exact List.Sublist.refl _

theorem edgePairs_removeEdges_sublist (G : Graph) (l : List (Nat × Nat)) :
    List.Sublist (edgePairs (removeEdges G l)) (edgePairs G) := by
  induction l generalizing G with
  | nil => exact List.Sublist.refl _
  | cons e t ih =>
    unfold removeEdges
    rw [List.foldl_cons]
    exact (ih (removeEdge G e.1 e.2)).trans (edgePairs_removeEdge_sublist G e.1 e.2)

theorem length_lt_of_sublist_of_not_mem {α : Type} {s t : List α} {a : α}
    (hs : List.Sublist s t) (hm : a ∈ t) (hn : a ∉ s) : s.length < t.length := by
  refine Nat.lt_of_le_of_ne hs.length_le (fun he => ?_)
  rw [hs.eq_of_length he] at hn
  exact hn hm

theorem degree_eq_zero_adj {G : Graph} {x : Nat} (h : degree G x = 0) :
    adj G x = [] := by
  unfold degree at h
  have := Nat.eq_zero_of_add_eq_zero_right h
  exact List.length_eq_zero.1 this

/-- Removing a node with empty adjacency does not change the edge pairs. -/
theorem edgePairs_removeNode_isolated {G : Graph} {x : Nat} (hnd : NodesND G)
    (hs : Symm G) (hx : adj G x = []) :
    edgePairs (removeNode G x) = edgePairs G := by
  have hkey : ∀ p ∈ G, p.1 = x → p.2 = [] := by
    intro p hp hk
    have := adj_of_mem hnd hp
    rw [hk, hx] at this
    exact this.symm
  have hnin : ∀ p ∈ G, x ∉ p.2 := by
    intro p hp hm
    have := hs p hp x hm
    rw [hx] at this
    cases this
  clear hnd hs hx
  induction G with
  | nil => rfl
  | cons q t ih =>
    by_cases hq : q.1 = x
    · have hq2 : q.2 = [] := hkey q (List.mem_cons_self q t) hq
      have h1 : (q.1 != x) = false := by simpa using hq
      unfold removeNode edgePairs
      simp only [List.filter, h1, List.flatMap_cons, hq2, List.filter_nil,
        List.map_nil, List.nil_append]
      have := ih (fun p hp => hkey p (List.mem_cons_of_mem q hp))
        (fun p hp => hnin p (List.mem_cons_of_mem q hp))
      unfold removeNode edgePairs at this
      exact this
    · have h1 : (q.1 != x) = true := by simpa using hq
      have hfe : q.2.filter (fun y => y != x) = q.2 := by
        rw [List.filter_eq_self]
        intro b hb
        simp only [bne_iff_ne, ne_eq]
        intro he
        exact hnin q (List.mem_cons_self q t) (he ▸ hb)
      unfold removeNode edgePairs
      simp only [List.filter, h1, List.map_cons, List.flatMap_cons, hfe]
      have := ih (fun p hp => hkey p (List.mem_cons_of_mem q hp))
        (fun p hp => hnin p (List.mem_cons_of_mem q hp))
      unfold removeNode edgePairs at this
      rw [this]

theorem adj_removeNode_isolated {G : Graph} {x y : Nat} (hx : adj G x = []) :
    adj (removeNode G y) x = [] := by
  rw [adj_removeNode]
  by_cases h : x = y
  · rw [if_pos h]
  · rw [if_neg h, hx]; rfl

/-- Removing a list of nodes that all have empty adjacency does not change
the edge pairs. -/
theorem edgePairs_removeNodes_isolated {G : Graph} {l : List Nat}
    (hwf : WF G) (hx : ∀ x ∈ l, adj G x = []) :
    edgePairs (removeNodes G l) = edgePairs G := by
  induction l generalizing G with
  | nil => rfl
  | cons y t ih =>
    unfold removeNodes
    rw [List.foldl_cons]
    have h1 : edgePairs (removeNode G y) = edgePairs G :=
      edgePairs_removeNode_isolated hwf.1 hwf.2.2.1 (hx y (List.mem_cons_self y t))
    have h2 := ih (WF_removeNode hwf y)
      (fun x hxm => adj_removeNode_isolated (hx x (List.mem_cons_of_mem y hxm)))
    unfold removeNodes at h2
    rw [h2, h1]

theorem hasEdge_removeNodes {G : Graph} {l : List Nat} {u v : Nat} :
    v ∈ adj (removeNodes G l) u ↔ (u ∉ l ∧ v ∉ l ∧ v ∈ adj G u) := by
  induction l generalizing G with
  | nil => simp [removeNodes]
  | cons x t ih =>
    unfold removeNodes
    rw [List.foldl_cons]
    unfold removeNodes at ih
    rw [ih, hasEdge_removeNode]
    constructor
    · intro ⟨hu, hv, hx, hy, hm⟩
      exact ⟨by simp [hx, hu], by simp [hy, hv], hm⟩
    · intro ⟨hu, hv, hm⟩
      simp only [List.mem_cons, not_or] at hu hv
      exact ⟨hu.2, hv.2, hu.1, hv.1, hm⟩

/-! Properties of the two maximum-degree selections. -/

theorem fhsKeyGt_degree {G : Graph} {n b : Nat} (h : fhsKeyGt G n b = true) :
    degree G b ≤ degree G n := by
  unfold fhsKeyGt at h
  rcases Bool.or_eq_true_iff.1 h with h1 | h2
  · exact Nat.le_of_lt (of_decide_eq_true h1)
  · exact Nat.le_of_eq (of_decide_eq_true (Bool.and_eq_true_iff.1 h2).1).symm

theorem fhsKeyGt_degree_not {G : Graph} {n b : Nat} (h : fhsKeyGt G n b = false) :
    degree G n ≤ degree G b := by
  unfold fhsKeyGt at h
  have h1 := (Bool.or_eq_false_iff.1 h).1
  exact Nat.le_of_not_lt (of_decide_eq_false h1)

theorem selectMax_fold_some {G : Graph} :
    ∀ (l : List Nat) (b : Nat),
      ∃ n, (l.foldl (fun acc x =>
        match acc with
        | none => some x
        | some c => if fhsKeyGt G x c then some x else some c) (some b)) = some n ∧
        (n ∈ l ∨ n = b) ∧ degree G b ≤ degree G n ∧
        ∀ x ∈ l, degree G x ≤ degree G n := by
  intro l
  induction l with
  | nil => exact fun b => ⟨b, rfl, Or.inr rfl, Nat.le_refl _, by simp⟩
  | cons a t ih =>
    intro b
    rw [List.foldl_cons]
    dsimp only
    by_cases hk : fhsKeyGt G a b = true
    · rw [if_pos hk]
      obtain ⟨n, he, hmem, hge, hall⟩ := ih a
      refine ⟨n, he, ?_, ?_, ?_⟩
      · rcases hmem with h | h
        · exact Or.inl (List.mem_cons_of_mem a h)
        · exact Or.inl (h ▸ List.mem_cons_self a t)
      · exact Nat.le_trans (fhsKeyGt_degree hk) hge
      · intro x hx
        rcases List.mem_cons.1 hx with h | h
        · exact h ▸ hge
        · exact hall x h
    · rw [if_neg hk]
      obtain ⟨n, he, hmem, hge, hall⟩ := ih b
      refine ⟨n, he, ?_, hge, ?_⟩
      · rcases hmem with h | h
        · exact Or.inl (List.mem_cons_of_mem a h)
        · exact Or.inr h
      · intro x hx
        rcases List.mem_cons.1 hx with h | h
        · subst h
          exact Nat.le_trans (fhsKeyGt_degree_not (Bool.eq_false_iff.2 hk)) hge
        · exact hall x h

theorem selectMax_spec {G : Graph} (h : nodesOf G ≠ []) :
    ∃ n, selectMax G = some n ∧ n ∈ nodesOf G ∧
      ∀ x ∈ nodesOf G, degree G x ≤ degree G n := by
  unfold selectMax
  cases hl : nodesOf G with
  | nil => exact absurd hl h
  | cons a t =>
    rw [List.foldl_cons]
    obtain ⟨n, he, hmem, hge, hall⟩ := selectMax_fold_some (G := G) t a
    refine ⟨n, he, ?_, ?_⟩
    · rcases hmem with hm | hm
      · exact List.mem_cons_of_mem a hm
      · exact hm ▸ List.mem_cons_self a t
    · intro x hx
      rcases List.mem_cons.1 hx with hx1 | hx2
      · exact hx1 ▸ hge
      · exact hall x hx2

theorem selectMaxDeg_fold_some {H : Graph} :
    ∀ (l : List (Nat × List Nat)) (b : Nat × Nat), b.2 = degree H b.1 →
      ∃ nd, (l.foldl (fun acc p =>
        match acc with
        | none => some (p.1, degree H p.1)
        | some bd => if bd.2 < degree H p.1 then some (p.1, degree H p.1) else some bd)
          (some b)) = some nd ∧
        (nd.1 ∈ l.map Prod.fst ∨ nd = b) ∧ b.2 ≤ nd.2 ∧ nd.2 = degree H nd.1 ∧
        ∀ p ∈ l, degree H p.1 ≤ nd.2 := by
  intro l
  induction l with
  | nil => exact fun b hb => ⟨b, rfl, Or.inr rfl, Nat.le_refl _, hb, by simp⟩
  | cons a t ih =>
    intro b hb
    rw [List.foldl_cons]
    dsimp only
    by_cases hk : b.2 < degree H a.1
    · rw [if_pos hk]
      obtain ⟨nd, he, hmem, hge, hdeg, hall⟩ := ih (a.1, degree H a.1) rfl
      refine ⟨nd, he, ?_, Nat.le_trans (Nat.le_of_lt hk) hge, hdeg, ?_⟩
      · rcases hmem with h | h
        · exact Or.inl (List.mem_cons_of_mem a.1 h)
        · exact Or.inl (by rw [h]; exact List.mem_cons_self a.1 _)
      · intro p hp
        rcases List.mem_cons.1 hp with h | h
        · rw [h]; exact hge
        · exact hall p h
    · rw [if_neg hk]
      obtain ⟨nd, he, hmem, hge, hdeg, hall⟩ := ih b hb
      refine ⟨nd, he, ?_, hge, hdeg, ?_⟩
      · rcases hmem with h | h
        · exact Or.inl (List.mem_cons_of_mem a.1 h)
        · exact Or.inr h
      · intro p hp
        rcases List.mem_cons.1 hp with h | h
        · rw [h]
          exact Nat.le_trans (Nat.le_of_not_lt hk) hge
        · exact hall p h

theorem selectMaxDeg_spec {H : Graph} (h : H ≠ []) :
    ∃ nd, selectMaxDeg H = some nd ∧ nd.1 ∈ nodesOf H ∧ nd.2 = degree H nd.1 ∧
      ∀ p ∈ H, degree H p.1 ≤ nd.2 := by
  unfold selectMaxDeg
  cases hl : H with
  | nil => exact absurd hl h
  | cons a t =>
    rw [List.foldl_cons]
    obtain ⟨nd, he, hmem, hge, hdeg, hall⟩ :=
      selectMaxDeg_fold_some (H := a :: t) t (a.1, degree (a :: t) a.1) rfl
    refine ⟨nd, he, ?_, hdeg, ?_⟩
    · rcases hmem with hm | hm
      · unfold nodesOf
        rw [List.map_cons]
        exact List.mem_cons_of_mem a.1 hm
      · unfold nodesOf
        rw [hm, List.map_cons]
        exact List.mem_cons_self a.1 _
    · intro p hp
      rcases List.mem_cons.1 hp with hp1 | hp2
      · rw [hp1]; exact hge
      · exact hall p hp2

/-- The selected node's degree dominates in particular every node's; if an
edge exists the selected node has non-empty adjacency. -/
theorem adj_ne_nil_of_degree_pos {G : Graph} {n : Nat} (h : 0 < degree G n) :
    adj G n ≠ [] := by
  intro he
  unfold degree at h
  rw [he] at h
  simp at h

theorem degree_pos_of_adj {G : Graph} {u v : Nat} (h : v ∈ adj G u) :
    0 < degree G u := by
  unfold degree
  have : 0 < (adj G u).length := List.length_pos.2 (fun he => by rw [he] at h; cases h)
  omega

/-! Properties of `bfs_collect_m`. -/

theorem bfsScan_collected_mono (mMax : Nat) :
    ∀ (l : List Nat) (s : List Nat × List Nat × List Nat) {x : Nat},
      x ∈ s.2.2 → x ∈ (bfsScan mMax l s).2.2 := by
  intro l
  induction l with
  | nil => intro s x hx; exact hx
  | cons nb rest ih =>
    intro s x hx
    obtain ⟨visited, q, collected⟩ := s
    unfold bfsScan
    by_cases hv : nb ∈ visited
    · rw [if_pos hv]
      exact ih _ hx
    · rw [if_neg hv]
      dsimp only
      by_cases hm : mMax ≤ (collected ++ [nb]).length
      · rw [if_pos hm]
        exact List.mem_append_left [nb] hx
      · rw [if_neg hm]
        exact ih _ (List.mem_append_left [nb] hx)

theorem bfsLoop_collected_mono (G : Graph) (mMax : Nat) :
    ∀ (fuel : Nat) (s : List Nat × List Nat × List Nat) {x : Nat},
      x ∈ s.2.2 → x ∈ bfsLoop G mMax fuel s := by
  intro fuel
  induction fuel with
  | zero => intro s x hx; exact hx
  | succ f ih =>
    intro s x hx
    obtain ⟨visited, q, collected⟩ := s
    unfold bfsLoop
    cases q with
    | nil => exact hx
    | cons cur q2 =>
      dsimp only
      by_cases hc : collected.length < mMax
      · rw [if_pos hc]
        exact ih _ (bfsScan_collected_mono mMax _ _ hx)
      · rw [if_neg hc]
        exact hx

theorem start_mem_bfs_collect (G : Graph) (s mMax : Nat) :
    s ∈ bfs_collect_m G s mMax := by
  unfold bfs_collect_m
  exact bfsLoop_collected_mono G mMax _ _ (by simp)

theorem firstNeighbor_mem_bfs_collect {G : Graph} {s nb : Nat} {rest : List Nat}
    (hadj : adj G s = nb :: rest) (hns : nb ≠ s) {mMax : Nat} (hm : 2 ≤ mMax) :
    nb ∈ bfs_collect_m G s mMax := by
  unfold bfs_collect_m
  have hfuel : graphSize G + 2 = (graphSize G + 1) + 1 := rfl
  rw [hfuel]
  unfold bfsLoop
  dsimp only
  have hc : [s].length < mMax := by simpa using hm
  rw [if_pos hc]
  have hscan : nb ∈ (bfsScan mMax (adj G s) ([s], [], [s])).2.2 := by
    rw [hadj]
    unfold bfsScan
    have hnv : ¬ nb ∈ [s] := by simpa using hns
    rw [if_neg hnv]
    dsimp only
    by_cases hm2 : mMax ≤ ([s] ++ [nb]).length
    · rw [if_pos hm2]
      exact List.mem_append_right [s] (by simp)
    · rw [if_neg hm2]
      exact bfsScan_collected_mono mMax rest _ (List.mem_append_right [s] (by simp))
  exact bfsLoop_collected_mono G mMax _ _ hscan

theorem bfs_collect_ne_nil (G : Graph) (s mMax : Nat) :
    (bfs_collect_m G s mMax).isEmpty = false := by
  have := start_mem_bfs_collect G s mMax
  cases he : bfs_collect_m G s mMax with
  | nil => rw [he] at this; cases this
  | cons a t => rfl

/-! Facts about one iteration of the `create_fhs` loop. -/

theorem mem_internalEdges {G : Graph} {Ve : List Nat} {a b : Nat} :
    (a, b) ∈ internalEdges G Ve ↔ a ∈ Ve ∧ b ∈ adj G a ∧ b ∈ Ve ∧ a < b := by
  unfold internalEdges
  rw [List.mem_flatMap]
  constructor
  · intro ⟨u, hu, hm⟩
    obtain ⟨v, hv, he⟩ := List.mem_map.1 hm
    obtain ⟨hv1, hv2⟩ := List.mem_filter.1 hv
    have he1 : u = a := congrArg Prod.fst he
    have he2 : v = b := congrArg Prod.snd he
    subst he1; subst he2
    have hv3 := Bool.and_eq_true_iff.1 hv2
    exact ⟨hu, hv1, of_decide_eq_true hv3.1, of_decide_eq_true hv3.2⟩
  · intro ⟨h1, h2, h3, h4⟩
    refine ⟨a, h1, List.mem_map.2 ⟨b, List.mem_filter.2 ⟨h2, ?_⟩, rfl⟩⟩
    rw [Bool.and_eq_true_iff]
    exact ⟨decide_eq_true h3, decide_eq_true h4⟩

theorem fhsBody_caller (m : Nat) (s : FhsState) (n : Nat) :
    (fhsBody m s n).caller = s.caller := rfl

theorem fhsBody_heds (m : Nat) (s : FhsState) (n : Nat) :
    (fhsBody m s n).hyperedges = s.hyperedges ++ [bfs_collect_m s.G n m] := rfl

theorem fhsBody_memb (m : Nat) (s : FhsState) (n : Nat) :
    (fhsBody m s n).memb =
      membAppendAll s.memb (bfs_collect_m s.G n m) s.hyperedges.length := rfl

theorem fhsBody_G (m : Nat) (s : FhsState) (n : Nat) :
    (fhsBody m s n).G =
      removeNodes (removeEdges s.G (internalEdges s.G (bfs_collect_m s.G n m)))
        (((removeEdges s.G (internalEdges s.G (bfs_collect_m s.G n m))).filter
            (fun p => degree (removeEdges s.G (internalEdges s.G (bfs_collect_m s.G n m))) p.1 == 0)).map
          Prod.fst) := rfl

theorem fhsStep_eq_some {m : Nat} {s : FhsState} (hnd : NodesND s.G)
    (he : numberOfEdges s.G ≠ 0) :
    ∃ n, selectMax s.G = some n ∧ fhsStep m s = some (fhsBody m s n) ∧
      n ∈ nodesOf s.G ∧ ∀ x ∈ nodesOf s.G, degree s.G x ≤ degree s.G n := by
  obtain ⟨u, v, huv⟩ := numberOfEdges_pos_adj hnd he
  have hnn : nodesOf s.G ≠ [] := by
    intro hnil
    have := mem_nodes_of_adj huv
    rw [hnil] at this
    cases this
  obtain ⟨n, hsel, hmem, hmax⟩ := selectMax_spec hnn
  refine ⟨n, hsel, ?_, hmem, hmax⟩
  have hlen : ¬ s.G.length = 0 := by
    intro h0
    have : s.G = [] := List.length_eq_zero.1 h0
    apply hnn
    rw [this]
    rfl
  unfold fhsStep
  rw [if_neg he, if_neg hlen, hsel]
  dsimp only
  rw [bfs_collect_ne_nil]
  rfl

/-- The nodes removed as isolated really have no incident edge. -/
theorem iso_adj_nil {G1 : Graph} {x : Nat}
    (hx : x ∈ (G1.filter (fun p => degree G1 p.1 == 0)).map Prod.fst) :
    adj G1 x = [] := by
  obtain ⟨p, hp, he⟩ := List.mem_map.1 hx
  have h2 := (List.mem_filter.1 hp).2
  have h3 : degree G1 p.1 = 0 := by simpa using h2
  rw [← he]
  exact degree_eq_zero_adj h3

theorem fhsBody_inv {m : Nat} {s : FhsState} (hwf : WF s.G)
    (hnsl : NoSelfLoops s.G) (n : Nat) :
    WF (fhsBody m s n).G ∧ NoSelfLoops (fhsBody m s n).G := by
  rw [fhsBody_G]
  exact ⟨WF_removeNodes (WF_removeEdges hwf _) _,
    NSL_removeNodes (WF_removeEdges hwf _).1 (NSL_removeEdges hwf.1 hnsl _) _⟩

theorem fhsBody_decrease {m : Nat} {s : FhsState} {n : Nat} (hwf : WF s.G)
    (hnsl : NoSelfLoops s.G) (he : numberOfEdges s.G ≠ 0) (hm : 2 ≤ m)
    (hmax : ∀ x ∈ nodesOf s.G, degree s.G x ≤ degree s.G n) :
    numberOfEdges (fhsBody m s n).G < numberOfEdges s.G := by
  obtain ⟨u, v, huv⟩ := numberOfEdges_pos_adj hwf.1 he
  have hdn : 0 < degree s.G n :=
    Nat.lt_of_lt_of_le (degree_pos_of_adj huv) (hmax u (mem_nodes_of_adj huv))
  cases hadj : adj s.G n with
  | nil => exact absurd hadj (adj_ne_nil_of_degree_pos hdn)
  | cons nb rest =>
    have hnb : nb ∈ adj s.G n := by rw [hadj]; exact List.mem_cons_self nb rest
    have hne : nb ≠ n := by
      intro h
      exact nsl_adj hnsl n (h ▸ hnb)
    have hnVe : n ∈ bfs_collect_m s.G n m := start_mem_bfs_collect s.G n m
    have hnbVe : nb ∈ bfs_collect_m s.G n m :=
      firstNeighbor_mem_bfs_collect hadj hne hm
    have hpair : ∃ e, e ∈ internalEdges s.G (bfs_collect_m s.G n m) ∧
        e ∈ edgePairs s.G := by
      rcases Nat.lt_or_ge n nb with hlt | hge
      · exact ⟨(n, nb), mem_internalEdges.2 ⟨hnVe, hnb, hnbVe, hlt⟩,
          mem_edgePairs_of_adj hnb (Nat.le_of_lt hlt)⟩
      · have hlt2 : nb < n := Nat.lt_of_le_of_ne hge (Ne.symm ?_)
        · have hn : n ∈ adj s.G nb := symmA hwf.2.2.1 hnb
          exact ⟨(nb, n), mem_internalEdges.2 ⟨hnbVe, hn, hnVe, hlt2⟩,
            mem_edgePairs_of_adj hn (Nat.le_of_lt hlt2)⟩
        · intro h2
          exact hne h2.symm
    obtain ⟨e, hint, hep⟩ := hpair
    rw [fhsBody_G]
    set G1 := removeEdges s.G (internalEdges s.G (bfs_collect_m s.G n m)) with hG1
    set iso := (G1.filter (fun p => degree G1 p.1 == 0)).map Prod.fst with hisod
    have hkill := removeEdges_kills hint s.G
    rw [← hG1] at hkill
    have hwf1 : WF G1 := WF_removeEdges hwf _
    have hnotin : e ∉ edgePairs G1 := by
      intro hmem
      exact hkill.1 (adj_of_mem_edgePairs hwf1.1 (by
        have he2 : ((e.1, e.2) : Nat × Nat) = e := rfl
        rw [he2]
        exact hmem))
    have h1 : numberOfEdges G1 < numberOfEdges s.G :=
      length_lt_of_sublist_of_not_mem
        (by rw [hG1]; exact edgePairs_removeEdges_sublist s.G _) hep hnotin
    have h2 : edgePairs (removeNodes G1 iso) = edgePairs G1 :=
      edgePairs_removeNodes_isolated hwf1 (fun x hx => iso_adj_nil (hisod ▸ hx))
    unfold numberOfEdges at h1 ⊢
    rw [h2]
    exact h1

theorem fhsBody_coverage {m : Nat} {s : FhsState} {n : Nat} (hwf : WF s.G) :
    ∀ u v, v ∈ adj s.G u → v ∈ adj (fhsBody m s n).G u ∨
      (u ∈ bfs_collect_m s.G n m ∧ v ∈ bfs_collect_m s.G n m) := by
  intro u v huv
  rw [fhsBody_G]
  set G1 := removeEdges s.G (internalEdges s.G (bfs_collect_m s.G n m)) with hG1
  set iso := (G1.filter (fun p => degree G1 p.1 == 0)).map Prod.fst with hisod
  have hwf1 : WF G1 := WF_removeEdges hwf _
  by_cases h1 : v ∈ adj G1 u
  · left
    rw [hasEdge_removeNodes]
    refine ⟨?_, ?_, h1⟩
    · intro hu
      have h2 := iso_adj_nil (hisod ▸ hu)
      rw [h2] at h1
      cases h1
    · intro hv
      have h3 := iso_adj_nil (hisod ▸ hv)
      have h4 := symmA hwf1.2.2.1 h1
      rw [h3] at h4
      cases h4
  · right
    by_contra hc
    apply h1
    rw [hG1]
    refine removeEdges_keeps huv (fun e hel => ?_)
    have hm := mem_internalEdges.1 (show (e.1, e.2) ∈ _ from hel)
    constructor
    · intro ⟨ha, hb⟩
      exact hc ⟨ha ▸ hm.1, hb ▸ hm.2.2.1⟩
    · intro ⟨ha, hb⟩
      exact hc ⟨hb ▸ hm.2.2.1, ha ▸ hm.1⟩

/-- The main induction for `create_fhs`: with fuel at least the working
edge count and `m_max ≥ 2`, the loop completes, consumes every edge, and
every working-graph edge ends up with both endpoints inside some produced
hyperedge. -/
theorem fhsLoop_main {m : Nat} (hm : 2 ≤ m) :
    ∀ (fuel : Nat) (s : FhsState), WF s.G → NoSelfLoops s.G →
      numberOfEdges s.G ≤ fuel →
      ∃ s2, fhsLoop m fuel s = some s2 ∧ numberOfEdges s2.G = 0 ∧
        (∀ u v, v ∈ adj s.G u → ∃ hed ∈ s2.hyperedges, u ∈ hed ∧ v ∈ hed) ∧
        (∀ h ∈ s.hyperedges, h ∈ s2.hyperedges) := by
  intro fuel
  induction fuel with
  | zero =>
    intro s hwf hnsl hle
    have h0 : numberOfEdges s.G = 0 := Nat.le_zero.1 hle
    have hstep : fhsStep m s = none := by
      unfold fhsStep
      rw [if_pos h0]
    refine ⟨s, by unfold fhsLoop; rw [hstep], h0, ?_, fun h hh => hh⟩
    intro u v huv
    exact absurd huv ((numberOfEdges_eq_zero hwf.1 hwf.2.2.1).1 h0 u v)
  | succ f ih =>
    intro s hwf hnsl hle
    by_cases h0 : numberOfEdges s.G = 0
    · have hstep : fhsStep m s = none := by
        unfold fhsStep
        rw [if_pos h0]
      refine ⟨s, by unfold fhsLoop; rw [hstep], h0, ?_, fun h hh => hh⟩
      intro u v huv
      exact absurd huv ((numberOfEdges_eq_zero hwf.1 hwf.2.2.1).1 h0 u v)
    · obtain ⟨n, hsel, hstep, hmem, hmax⟩ := fhsStep_eq_some hwf.1 h0
      have hinv := fhsBody_inv (m := m) hwf hnsl n
      have hdec := fhsBody_decrease hwf hnsl h0 hm hmax
      have hle2 : numberOfEdges (fhsBody m s n).G ≤ f := by omega
      obtain ⟨s2, hrun, hz, hcov, hmono⟩ := ih (fhsBody m s n) hinv.1 hinv.2 hle2
      refine ⟨s2, ?_, hz, ?_, ?_⟩
      · unfold fhsLoop
        rw [hstep]
        exact hrun
      · intro u v huv
        rcases fhsBody_coverage (m := m) (n := n) hwf u v huv with h | h
        · exact hcov u v h
        · refine ⟨bfs_collect_m s.G n m, ?_, h.1, h.2⟩
          apply hmono
          rw [fhsBody_heds]
          exact List.mem_append_right _ (List.mem_cons_self _ _)
      · intro h hh
        apply hmono
        rw [fhsBody_heds]
        exact List.mem_append_left _ hh

/-! Membership-index consistency through one FHS iteration. -/

theorem getD_append_length {α : Type} (l : List α) (a d : α) :
    (l ++ [a]).getD l.length d = a := by
  rw [List.getD_eq_getElem?_getD, List.getElem?_append_right (Nat.le_refl _)]
  simp

theorem consistent_membAppendAll {heds : List (List Nat)} {memb : List (Nat × List Nat)}
    (h : ConsistentMemb heds memb) (Ve : List Nat) :
    ConsistentMemb (heds ++ [Ve]) (membAppendAll memb Ve heds.length) := by
  intro p2 hp2
  unfold membAppendAll at hp2
  obtain ⟨p, hp, he⟩ := List.mem_map.1 hp2
  obtain ⟨hnd, hidx⟩ := h p hp
  have hold : ∀ i ∈ p.2, i < (heds ++ [Ve]).length ∧ p.1 ∈ (heds ++ [Ve]).getD i [] := by
    intro i hi
    obtain ⟨hi1, hi2⟩ := hidx i hi
    refine ⟨by rw [List.length_append]; simp only [List.length_singleton]; omega, ?_⟩
    rw [List.getD_append heds [Ve] [] i hi1]
    exact hi2
  by_cases hv : p.1 ∈ Ve
  · rw [if_pos hv] at he
    subst he
    have hfresh : heds.length ∉ p.2 := by
      intro hmem
      exact absurd (hidx _ hmem).1 (Nat.lt_irrefl _)
    refine ⟨?_, ?_⟩
    · exact List.Nodup.append hnd (List.nodup_singleton _)
        (by simpa [List.disjoint_singleton] using hfresh)
    · intro i hi
      rcases List.mem_append.1 hi with h1 | h2
      · exact hold i h1
      · have : i = heds.length := by simpa using h2
        subst this
        refine ⟨by rw [List.length_append]; simp only [List.length_singleton]; omega, ?_⟩
        rw [getD_append_length]
        exact hv
  · rw [if_neg hv] at he
    subst he
    exact ⟨hnd, hold⟩

theorem fhsStep_shape {m : Nat} {s s2 : FhsState} (h : fhsStep m s = some s2) :
    ∃ n, selectMax s.G = some n ∧ s2 = fhsBody m s n := by
  unfold fhsStep at h
  by_cases h0 : numberOfEdges s.G = 0
  · rw [if_pos h0] at h; cases h
  · rw [if_neg h0] at h
    by_cases h1 : s.G.length = 0
    · rw [if_pos h1] at h; cases h
    · rw [if_neg h1] at h
      cases hsel : selectMax s.G with
      | none => rw [hsel] at h; cases h
      | some n =>
        rw [hsel] at h
        dsimp only at h
        by_cases h2 : (bfs_collect_m s.G n m).isEmpty
        · rw [if_pos h2] at h; cases h
        · rw [if_neg h2] at h
          exact ⟨n, hsel ▸ rfl, (Option.some.inj h).symm⟩

theorem fhsLoop_caller {m : Nat} :
    ∀ (fuel : Nat) (s s2 : FhsState), fhsLoop m fuel s = some s2 →
      s2.caller = s.caller := by
  intro fuel
  induction fuel with
  | zero =>
    intro s s2 h
    unfold fhsLoop at h
    cases hs : fhsStep m s with
    | none =>
      rw [hs] at h
      dsimp only at h
      rw [← Option.some.inj h]
    | some s3 =>
      rw [hs] at h
      dsimp only at h
      cases h
  | succ f ih =>
    intro s s2 h
    unfold fhsLoop at h
    cases hs : fhsStep m s with
    | none =>
      rw [hs] at h
      dsimp only at h
      rw [← Option.some.inj h]
    | some s3 =>
      rw [hs] at h
      dsimp only at h
      obtain ⟨n, _, hn⟩ := fhsStep_shape hs
      rw [ih s3 s2 h, hn, fhsBody_caller]

theorem fhsLoop_consistent {m : Nat} :
    ∀ (fuel : Nat) (s s2 : FhsState), ConsistentMemb s.hyperedges s.memb →
      fhsLoop m fuel s = some s2 → ConsistentMemb s2.hyperedges s2.memb := by
  intro fuel
  induction fuel with
  | zero =>
    intro s s2 hc h
    unfold fhsLoop at h
    cases hs : fhsStep m s with
    | none =>
      rw [hs] at h
      dsimp only at h
      rw [← Option.some.inj h]
      exact hc
    | some s3 =>
      rw [hs] at h
      dsimp only at h
      cases h
  | succ f ih =>
    intro s s2 hc h
    unfold fhsLoop at h
    cases hs : fhsStep m s with
    | none =>
      rw [hs] at h
      dsimp only at h
      rw [← Option.some.inj h]
      exact hc
    | some s3 =>
      rw [hs] at h
      dsimp only at h
      obtain ⟨n, _, hn⟩ := fhsStep_shape hs
      refine ih s3 s2 ?_ h
      rw [hn, fhsBody_heds, fhsBody_memb]
      exact consistent_membAppendAll hc _

theorem initFhsState_consistent (G : Graph) :
    ConsistentMemb (initFhsState G).hyperedges (initFhsState G).memb := by
  intro p hp
  unfold initFhsState at hp
  obtain ⟨q, _, he⟩ := List.mem_map.1 hp
  rw [← he]
  exact ⟨List.nodup_nil, by intro i hi; cases hi⟩

theorem copyGraph_eq (G : Graph) : copyGraph G = G := by
  unfold copyGraph
  exact List.map_id G

/-! ## Concrete graphs used by the claim theorems -/

/-- The demonstration graph of fhs.py's `__main__` block: 11 edges on
nodes 1..10. -/
def fhsDemoGraph : Graph :=
  edges_df_to_nx [(1,2),(1,3),(1,4),(2,5),(3,6),(4,7),(5,6),(6,7),(7,8),(8,9),(9,10)]

/-- A 5-node graph on which FHS co-locates the endpoints of edge `(2,3)`
in two distinct hyperedges. -/
def fhsCounterGraph : Graph :=
  edges_df_to_nx [(1,2),(1,3),(1,4),(2,3),(2,5),(3,5)]

/-- A single-edge graph. -/
def pairGraph : Graph := edges_df_to_nx [(1,2)]

/-- An isolated node 1 followed by the edge `2 - 3` (a well-formed
networkx graph, e.g. after `G.add_node(1); G.add_edge(2, 3)`). -/
def supernodeCounterGraph : Graph := [(1, []), (2, [3]), (3, [2])]

/-! ## Claim C1 -/

/-- C1 (counterexample): on `fhsCounterGraph` with `m_max = 3`, the edge
`(2, 3)` of the input graph has both endpoints co-located in hyperedge 0
AND in hyperedge 1 of the `create_fhs` output — so "exactly one hyperedge"
is false on the code; only "at least one" holds. -/
theorem C1_counterexample :
    hasEdge fhsCounterGraph 2 3 ∧
    ((create_fhs fhsCounterGraph 3).map (fun s => s.hyperedges)).getD [] =
      [[1,2,3],[5,2,3],[1,4]] ∧
    2 ∈ (((create_fhs fhsCounterGraph 3).map (fun s => s.hyperedges)).getD []).getD 0 [] ∧
    3 ∈ (((create_fhs fhsCounterGraph 3).map (fun s => s.hyperedges)).getD []).getD 0 [] ∧
    2 ∈ (((create_fhs fhsCounterGraph 3).map (fun s => s.hyperedges)).getD []).getD 1 [] ∧
    3 ∈ (((create_fhs fhsCounterGraph 3).map (fun s => s.hyperedges)).getD []).getD 1 [] := by
  decide

/-- C1 (amended): for every well-formed self-loop-free graph and every
`m_max ≥ 2`, `create_fhs` completes within `|E|` iterations and every
original edge has both endpoints co-located in AT LEAST one produced
hyperedge (the hyperedge that consumed it); co-location in exactly one
hyperedge does not hold in general (see the counterexample). -/
theorem C1_fhs_edge_coverage (G : Graph) (m : Nat) (hm : 2 ≤ m) (hwf : WF G)
    (hnsl : NoSelfLoops G) :
    ∃ s, create_fhs G m = some s ∧
      ∀ u v, hasEdge G u v → ∃ hed ∈ s.hyperedges, u ∈ hed ∧ v ∈ hed := by
  unfold create_fhs
  have hG : (initFhsState G).G = G := copyGraph_eq G
  obtain ⟨s2, hrun, _, hcov, _⟩ :=
    fhsLoop_main hm (numberOfEdges G) (initFhsState G)
      (by rw [hG]; exact hwf) (by rw [hG]; exact hnsl)
      (by rw [hG])
  refine ⟨s2, hrun, fun u v huv => hcov u v ?_⟩
  rw [hG]
  exact huv

/-- Witness for C1: the demo graph satisfies every hypothesis and its edge
`(1, 2)` is covered. -/
theorem C1_fhs_edge_coverage_witness :
    hasEdge fhsDemoGraph 1 2 ∧ create_fhs fhsDemoGraph 3 ≠ none := by
  obtain ⟨s, hs, _⟩ :=
    C1_fhs_edge_coverage fhsDemoGraph 3 (by decide) (by decide) (by decide)
  refine ⟨by decide, ?_⟩
  rw [hs]
  exact fun h => Option.noConfusion h

/-! ## Claim C2 -/

/-- C2 (counterexample): with `m_max = 1` on the single-edge graph
`1 - 2`, one iteration of the `create_fhs` loop removes no edge at all
(the working graph still has its 1 edge afterwards), and the loop is still
running after `|E| = 1` iterations (in fact it never terminates: the state
reproduces itself except for the ever-growing hyperedge list). -/
theorem C2_counterexample :
    numberOfEdges pairGraph = 1 ∧
    ((fhsStep 1 (initFhsState pairGraph)).map (fun s => numberOfEdges s.G)).getD 99 = 1 ∧
    ((fhsStep 1 (initFhsState pairGraph)).map (fun s => s.G)).getD [] = pairGraph ∧
    fhsLoop 1 (numberOfEdges pairGraph) (initFhsState pairGraph) = none := by
  decide

/-- C2 (amended): for `m_max ≥ 2` (not `m_max ≥ 1` as claimed: the
counterexample shows an iteration with `m_max = 1` that removes nothing),
every iteration of the `create_fhs` loop strictly reduces the working
edge count, and the loop terminates within `|E|` iterations, consuming
every edge. -/
theorem C2_fhs_termination (m : Nat) (hm : 2 ≤ m) :
    (∀ s : FhsState, WF s.G → NoSelfLoops s.G → ∀ s2, fhsStep m s = some s2 →
      numberOfEdges s2.G < numberOfEdges s.G) ∧
    (∀ G : Graph, WF G → NoSelfLoops G →
      ∃ s, create_fhs G m = some s ∧ numberOfEdges s.G = 0) := by
  constructor
  · intro s hwf hnsl s2 hstep
    obtain ⟨n, hsel, hn⟩ := fhsStep_shape hstep
    have h0 : numberOfEdges s.G ≠ 0 := by
      intro h0
      unfold fhsStep at hstep
      rw [if_pos h0] at hstep
      cases hstep
    have hnn : nodesOf s.G ≠ [] := by
      intro hnil
      have : selectMax s.G = none := by
        unfold selectMax
        rw [hnil]
        rfl
      rw [this] at hsel
      cases hsel
    obtain ⟨n2, hsel2, _, hmax⟩ := selectMax_spec hnn
    have hne : n2 = n := Option.some.inj (hsel2 ▸ hsel)
    rw [hn]
    exact fhsBody_decrease hwf hnsl h0 hm (hne ▸ hmax)
  · intro G hwf hnsl
    unfold create_fhs
    have hG : (initFhsState G).G = G := copyGraph_eq G
    obtain ⟨s2, hrun, h0, _, _⟩ :=
      fhsLoop_main hm (numberOfEdges G) (initFhsState G)
        (by rw [hG]; exact hwf) (by rw [hG]; exact hnsl)
        (by rw [hG])
    exact ⟨s2, hrun, h0⟩

/-- Witness for C2 at `m_max = 3` on the demo graph. -/
theorem C2_fhs_termination_witness :
    (2 ≤ 3 ∧ WF fhsDemoGraph ∧ NoSelfLoops fhsDemoGraph) ∧
      create_fhs fhsDemoGraph 3 ≠ none := by
  refine ⟨⟨by decide, by decide, by decide⟩, ?_⟩
  obtain ⟨s, hs, _⟩ :=
    (C2_fhs_termination 3 (by decide)).2 fhsDemoGraph (by decide) (by decide)
  rw [hs]
  exact fun h => Option.noConfusion h

/-! ## Claim C9 -/

/-- C9 (counterexample): running `create_fhs` on the demo graph with
`m_max = 3` leaves the caller's graph binding exactly as it was — all 11
edges still present — while the internal working copy was consumed down to
0 edges.  The claim that the caller-owned input graph is destructively
modified is false: fhs.py line 40 copies it. -/
theorem C9_counterexample :
    ((create_fhs fhsDemoGraph 3).map (fun s => s.caller)).getD [] = fhsDemoGraph ∧
    numberOfEdges fhsDemoGraph = 11 ∧
    ((create_fhs fhsDemoGraph 3).map (fun s => numberOfEdges s.caller)).getD 99 = 11 ∧
    ((create_fhs fhsDemoGraph 3).map (fun s => numberOfEdges s.G)).getD 99 = 0 := by
  decide

/-- C9 (amended): `create_fhs` operates on an internal copy of the input
graph (`G = G_input.copy()`); whenever it returns, the caller's graph is
unchanged, so no separate defensive copy is needed. -/
theorem C9_fhs_caller_unchanged (G : Graph) (m : Nat) :
    ∀ s, create_fhs G m = some s → s.caller = G := by
  intro s h
  unfold create_fhs at h
  rw [fhsLoop_caller _ _ _ h]
  rfl

/-- Witness for C9 on the demo graph. -/
theorem C9_fhs_caller_unchanged_witness :
    (create_fhs fhsDemoGraph 3).map (fun s => s.caller) = some fhsDemoGraph := by
  cases he : create_fhs fhsDemoGraph 3 with
  | none => exact absurd he (by decide)
  | some s =>
    have hc := C9_fhs_caller_unchanged fhsDemoGraph 3 s he
    simp [hc]

/-! ## Claim C7 -/

/-- A graph whose two nodes tie at degree 1 and whose insertion order
(2 before 1) differs from the identifier order. -/
def nchTieGraph : Graph := edges_df_to_nx [(2, 1)]

/-- C7 (code evaluated at the failing input): on the single edge added as
`(2, 1)`, nodes 1 and 2 tie at degree 1, yet `greedy_vertex_cover` selects
node 2 — the first node in dict insertion order — because nch.py line 21
breaks ties by iteration order, not by lowest identifier.  (The FHS
selection on the same graph does pick node 1, via its `-hash(n)` key,
identity on ints.)  The claim's deterministic lowest-identifier tie-break
is the spec's stated contract and fhs.py's own docstring, so the NCH
behaviour is the code defect §9 of the spec flags. -/
theorem C7_tie_break_failing_input :
    degree nchTieGraph 1 = 1 ∧ degree nchTieGraph 2 = 1 ∧
    nodesOf nchTieGraph = [2, 1] ∧
    greedy_vertex_cover nchTieGraph none = [2] ∧
    selectMax nchTieGraph = some 1 := by
  decide

/-! ## Claim C8 -/

theorem adjEntry_isSome_addNode (G : Graph) (u : Nat) :
    (adjEntry (addNode G u) u).isSome := by
  unfold addNode
  by_cases h : G.any (fun p => p.1 == u)
  · rw [if_pos h]
    unfold adjEntry
    rw [List.find?_isSome]
    exact List.any_eq_true.1 h
  · rw [if_neg h]
    unfold adjEntry
    rw [List.find?_isSome]
    exact ⟨(u, []), List.mem_append_right G (List.mem_cons_self _ _), by simp⟩

theorem mem_adj_insertAdj_self {G : Graph} {a b : Nat}
    (h : (adjEntry G a).isSome) : b ∈ adj (insertAdj G a b) a := by
  unfold insertAdj
  rw [adj_map_shape]
  cases he : adjEntry G a with
  | none => rw [he] at h; cases h
  | some p =>
    have hk := (adjEntry_mem he).2
    dsimp only [Option.map, Option.getD]
    rw [if_pos (by simpa using hk)]
    by_cases hm : b ∈ p.2
    · rw [if_pos hm]; exact hm
    · rw [if_neg hm]
      exact List.mem_append_right p.2 (List.mem_cons_self _ _)

theorem mem_adj_insertAdj_mono {G : Graph} {a b u v : Nat}
    (h : v ∈ adj G u) : v ∈ adj (insertAdj G a b) u := by
  unfold insertAdj
  rw [adj_map_shape]
  cases he : adjEntry G u with
  | none => rw [adjEntry_eq_none he] at h; cases h
  | some p =>
    rw [adj_eq_of_entry he] at h
    dsimp only [Option.map, Option.getD]
    by_cases h1 : (p.1 == a) = true
    · rw [if_pos h1]
      by_cases h2 : b ∈ p.2
      · rw [if_pos h2]; exact h
      · rw [if_neg h2]; exact List.mem_append_left _ h
    · rw [if_neg h1]
      exact h

theorem adjEntry_isSome_insertAdj {G : Graph} {a b u : Nat}
    (h : (adjEntry G u).isSome) : (adjEntry (insertAdj G a b) u).isSome := by
  unfold insertAdj
  rw [adjEntry_map_shape]
  cases he : adjEntry G u with
  | none => rw [he] at h; cases h
  | some p => rfl

/-- C8 (counterexample): `edges_df_to_nx` on a row `(5, 5)` raises no
error at all; the resulting graph contains the self-loop. -/
theorem C8_counterexample :
    hasEdge (edges_df_to_nx [(5, 5)]) 5 5 ∧
    edges_df_to_nx [(5, 5)] = [(5, [5])] := by
  decide

/-- C8 (amended): the graph model performs no validation whatsoever:
adding a self-loop row `(u, u)` — at any position of the edge table —
succeeds, and the resulting graph contains the self-loop.  No `InvalidEdge`
failure exists anywhere in the code. -/
theorem C8_self_loop_accepted (rows : List (Nat × Nat)) (u : Nat) :
    hasEdge (edges_df_to_nx (rows ++ [(u, u)])) u u := by
  unfold edges_df_to_nx hasEdge
  rw [List.foldl_append]
  dsimp only [List.foldl]
  unfold addEdge
  apply mem_adj_insertAdj_mono
  apply mem_adj_insertAdj_self
  exact adjEntry_isSome_addNode _ u

/-! ## Claim C6 -/

theorem foldl_max_le_of_le {T : Nat} :
    ∀ (l : List Nat) (a : Nat), a ≤ T → (∀ x ∈ l, x ≤ T) → l.foldl max a ≤ T := by
  intro l
  induction l with
  | nil => intro a ha _; exact ha
  | cons b t ih =>
    intro a ha hall
    rw [List.foldl_cons]
    exact ih (max a b) (Nat.max_le.2 ⟨ha, hall b (List.mem_cons_self b t)⟩)
      (fun x hx => hall x (List.mem_cons_of_mem b hx))

theorem foldl_max_init_le : ∀ (l : List Nat) (a : Nat), a ≤ l.foldl max a := by
  intro l
  induction l with
  | nil => intro a; exact Nat.le_refl a
  | cons b t ih =>
    intro a
    rw [List.foldl_cons]
    exact (Nat.le_max_left a b).trans (ih (max a b))

theorem mem_le_foldl_max : ∀ (l : List Nat) (a x : Nat), x ∈ l → x ≤ l.foldl max a := by
  intro l
  induction l with
  | nil => intro a x hx; cases hx
  | cons b t ih =>
    intro a x hx
    rw [List.foldl_cons]
    rcases List.mem_cons.1 hx with h | h
    · exact h ▸ (Nat.le_max_right a b).trans (foldl_max_init_le t (max a b))
    · exact ih (max a b) x h

/-- C6: the clique-projection guard of both exporters: when some hyperedge
exceeds the threshold, the result is the `HyperedgeTooLarge`-style failure
carrying the offending (maximal) size and the threshold, with no rows at
all; when no hyperedge exceeds it, the export succeeds.  The error is
raised before the row loop runs, so a failure can never carry partial
output (the `Except.error` constructor holds no rows by construction). -/
theorem C6_clique_guard (heds : List (List Nat)) (caps : List ((Nat × Nat) × ℚ))
    (T : Nat) (fp : Option (List (Nat × ℚ))) :
    ((∃ hed ∈ heds, T < hed.length) →
      T < (heds.map List.length).foldl max 0 ∧
      export_clique_edges_csv heds caps T =
        Except.error ((heds.map List.length).foldl max 0, T) ∧
      export_clique heds caps T fp =
        Except.error ((heds.map List.length).foldl max 0, T)) ∧
    ((∀ hed ∈ heds, hed.length ≤ T) →
      export_clique_edges_csv heds caps T = Except.ok (cliqueRowsFhs heds caps) ∧
      (export_clique heds caps T fp).isOk = true) := by
  constructor
  · intro ⟨hed, hmem, hlen⟩
    have hmax : T < (heds.map List.length).foldl max 0 :=
      Nat.lt_of_lt_of_le hlen
        (mem_le_foldl_max (heds.map List.length) 0 hed.length
          (List.mem_map_of_mem List.length hmem))
    have hne : (heds.map List.length).isEmpty = false := by
      cases hh : heds with
      | nil => rw [hh] at hmem; cases hmem
      | cons a t => rfl
    have hcond : (!(heds.map List.length).isEmpty &&
        decide (T < (heds.map List.length).foldl max 0)) = true := by
      rw [hne, decide_eq_true hmax]
      rfl
    refine ⟨hmax, ?_, ?_⟩
    · unfold export_clique_edges_csv
      rw [if_pos hcond]
    · unfold export_clique
      rw [if_pos hcond]
  · intro hall
    have hcond : (!(heds.map List.length).isEmpty &&
        decide (T < (heds.map List.length).foldl max 0)) = false := by
      have hle : (heds.map List.length).foldl max 0 ≤ T :=
        foldl_max_le_of_le (heds.map List.length) 0 (Nat.zero_le T)
          (fun x hx => by
            obtain ⟨hed, hh, he⟩ := List.mem_map.1 hx
            exact he ▸ hall hed hh)
      rw [decide_eq_false (Nat.not_lt.2 hle)]
      exact Bool.and_false _
    constructor
    · unfold export_clique_edges_csv
      rw [if_neg (by rw [hcond]; exact Bool.false_ne_true)]
    · unfold export_clique
      rw [if_neg (by rw [hcond]; exact Bool.false_ne_true)]
      rfl

/-- Witness for C6: one oversized hyperedge fails with `(3, 2)` in both
exporters; a fitting hypergraph succeeds. -/
theorem C6_clique_guard_witness :
    export_clique_edges_csv [[1,2,3]] [] 2 = Except.error (3, 2) ∧
    export_clique [[1,2,3]] [] 2 none = Except.error (3, 2) ∧
    export_clique_edges_csv [[1,2]] [] 2 = Except.ok (cliqueRowsFhs [[1,2]] []) := by
  have h1 := (C6_clique_guard [[1,2,3]] [] 2 none).1
    ⟨[1,2,3], List.mem_cons_self _ _, by decide⟩
  have h2 := (C6_clique_guard [[1,2]] [] 2 none).2 (by decide)
  exact ⟨h1.2.1, h1.2.2, h2.1⟩

/-! ## Claim C3 -/

theorem filter_key_map_eq {n k : Nat} (idxs : List Nat) (c : ℚ) (hk : k ≠ n) :
    (idxs.map (fun idx => ((k, idx), c))).filter (fun e => e.1.1 == n) = [] := by
  induction idxs with
  | nil => rfl
  | cons i t ih =>
    rw [List.map_cons, List.filter_cons]
    have : (((k, i), c).1.1 == n) = false := by simpa using hk
    rw [this]
    exact ih

theorem filter_key_map_self {n : Nat} (idxs : List Nat) (c : ℚ) :
    (idxs.map (fun idx => ((n, idx), c))).filter (fun e => e.1.1 == n) =
      idxs.map (fun idx => ((n, idx), c)) := by
  rw [List.filter_eq_self]
  intro e he
  obtain ⟨i, _, hi⟩ := List.mem_map.1 he
  rw [← hi]
  simp

/-- C3: the script-level Capacity Redistributor (make_fhs_edges.py main,
lines 138-148).  For a node `n` with a duplicate-free membership record
`(n, idxs)` (`idxs ≠ []`) in the membership index, every one of its
`k = |idxs|` allocation entries equals `T'/k`, where `T'` floors the
node's total incident capacity `T` at `1.0` when `T ≤ 0`; consequently the
sum of `n`'s allocations is exactly `T'` (exactly `T` whenever `T > 0`).
Capacities are modelled as rationals, so the float statement "up to
floating-point rounding" is exact here. -/
theorem C3_capacity_conservation (rows : List (Nat × Nat × ℚ))
    (n2h : List (Nat × List Nat)) (n : Nat) (idxs : List Nat)
    (hmem : (n, idxs) ∈ n2h) (hnd : (n2h.map Prod.fst).Nodup) (hne : idxs ≠ []) :
    (fhs_node_caps rows n2h).filter (fun e => e.1.1 == n) =
      idxs.map (fun idx => ((n, idx),
        (if compute_node_totals rows n ≤ 0 then 1 else compute_node_totals rows n) /
          (idxs.length : ℚ))) ∧
    (((fhs_node_caps rows n2h).filter (fun e => e.1.1 == n)).map (fun e => e.2)).sum =
      (if compute_node_totals rows n ≤ 0 then 1 else compute_node_totals rows n) := by
  have hmain : (fhs_node_caps rows n2h).filter (fun e => e.1.1 == n) =
      idxs.map (fun idx => ((n, idx),
        (if compute_node_totals rows n ≤ 0 then 1 else compute_node_totals rows n) /
          (idxs.length : ℚ))) := by
    unfold fhs_node_caps
    induction n2h with
    | nil => cases hmem
    | cons p t ih =>
      rw [List.flatMap_cons, List.filter_append]
      rcases List.mem_cons.1 hmem with h | h
      · have hp2 : p = (n, idxs) := h.symm
        subst hp2
        have hkeys : ∀ q ∈ t, q.1 ≠ n := by
          intro q hq he
          rw [List.map_cons, List.nodup_cons] at hnd
          apply hnd.1
          show n ∈ List.map Prod.fst t
          rw [← he]
          exact List.mem_map_of_mem Prod.fst hq
        have htail : (t.flatMap (fun p => if p.2.isEmpty then []
            else p.2.map (fun idx => ((p.1, idx),
              (if compute_node_totals rows p.1 ≤ 0 then 1 else compute_node_totals rows p.1) /
                (p.2.length : ℚ))))).filter (fun e => e.1.1 == n) = [] := by
          rw [List.filter_eq_nil]
          intro e he2
          obtain ⟨q, hq, he3⟩ := List.mem_flatMap.1 he2
          by_cases hqe : q.2.isEmpty
          · rw [if_pos hqe] at he3; cases he3
          · rw [if_neg hqe] at he3
            obtain ⟨i, _, hi⟩ := List.mem_map.1 he3
            rw [← hi]
            simpa using hkeys q hq
        rw [htail, List.append_nil]
        have hie : idxs.isEmpty = false := by
          cases idxs with
          | nil => exact absurd rfl hne
          | cons a t2 => rfl
        simp only [hie, Bool.false_eq_true, if_false]
        exact filter_key_map_self idxs _
      · have hkey : p.1 ≠ n := by
          intro he
          rw [List.map_cons, List.nodup_cons] at hnd
          apply hnd.1
          rw [he]
          exact List.mem_map_of_mem Prod.fst h
        have hhead : ((if p.2.isEmpty then []
            else p.2.map (fun idx => ((p.1, idx),
              (if compute_node_totals rows p.1 ≤ 0 then 1 else compute_node_totals rows p.1) /
                (p.2.length : ℚ)))).filter (fun e => e.1.1 == n)) = [] := by
          by_cases hpe : p.2.isEmpty
          · rw [if_pos hpe]; rfl
          · rw [if_neg hpe]
            exact filter_key_map_eq p.2 _ hkey
        rw [hhead, List.nil_append]
        refine ih h ?_
        rw [List.map_cons, List.nodup_cons] at hnd
        exact hnd.2
  refine ⟨hmain, ?_⟩
  rw [hmain, List.map_map]
  have hconst : ((fun e : (Nat × Nat) × ℚ => e.2) ∘
      (fun idx => ((n, idx),
        (if compute_node_totals rows n ≤ 0 then 1 else compute_node_totals rows n) /
          (idxs.length : ℚ)))) = (fun _ => (if compute_node_totals rows n ≤ 0 then 1
            else compute_node_totals rows n) / (idxs.length : ℚ)) := rfl
  rw [hconst, List.map_const', List.sum_replicate, nsmul_eq_mul]
  have hlen : (idxs.length : ℚ) ≠ 0 := by
    have : idxs.length ≠ 0 := by
      cases idxs with
      | nil => exact absurd rfl hne
      | cons a t => simp
    exact_mod_cast this
  rw [mul_div_cancel₀ _ hlen]

/-- Witness for C3: node 1 has total 10 from two rows and sits in two
hyperedges, each allocation is 5 and the sum is 10; node 7 is on no row,
so its total is floored to 1. -/
theorem C3_capacity_conservation_witness :
    (fhs_node_caps [(1,2,4),(3,1,6)] [(1,[0,1]),(2,[0]),(7,[2])]).filter
        (fun e => e.1.1 == 1) =
      [((1,0), 5), ((1,1), 5)] ∧
    ((fhs_node_caps [(1,2,4),(3,1,6)] [(1,[0,1]),(2,[0]),(7,[2])]).filter
        (fun e => e.1.1 == (1 : Nat))).map (fun e => e.2) = [5, 5] ∧
    (fhs_node_caps [(1,2,4),(3,1,6)] [(1,[0,1]),(2,[0]),(7,[2])]).filter
        (fun e => e.1.1 == 7) = [((7,2), 1)] := by
  have h1 := C3_capacity_conservation [(1,2,4),(3,1,6)] [(1,[0,1]),(2,[0]),(7,[2])]
    1 [0,1] (by decide) (by decide) (by decide)
  have h7 := C3_capacity_conservation [(1,2,4),(3,1,6)] [(1,[0,1]),(2,[0]),(7,[2])]
    7 [2] (by decide) (by decide) (by decide)
  have ht1 : compute_node_totals [(1,2,4),(3,1,6)] 1 = 10 := by
    unfold compute_node_totals
    norm_num [List.foldl]
  have ht7 : compute_node_totals [(1,2,4),(3,1,6)] 7 = 0 := by
    unfold compute_node_totals
    norm_num [List.foldl]
  refine ⟨?_, ?_, ?_⟩
  · rw [h1.1, ht1, if_neg (by norm_num : ¬ (10 : ℚ) ≤ 0)]
    simp only [List.map]
    norm_num
  · rw [h1.1, ht1, if_neg (by norm_num : ¬ (10 : ℚ) ≤ 0)]
    simp only [List.map, List.map_cons, List.map_nil]
    norm_num
  · rw [h7.1, ht7, if_pos (by norm_num : (0 : ℚ) ≤ 0)]
    simp only [List.map]
    norm_num

/-! ## Claim C10 -/

theorem filter_ne_length {hed : List Nat} {u : Nat} (hnd : hed.Nodup)
    (hu : u ∈ hed) : (hed.filter (fun v => v != u)).length = hed.length - 1 := by
  induction hed with
  | nil => cases hu
  | cons a t ih =>
    rw [List.nodup_cons] at hnd
    rw [List.filter_cons]
    by_cases ha : a = u
    · rw [if_neg (by simp [ha])]
      have ht : t.filter (fun v => v != u) = t := by
        rw [List.filter_eq_self]
        intro b hb2
        simp only [bne_iff_ne, ne_eq]
        intro he
        rw [← ha] at he
        exact hnd.1 (he ▸ hb2)
      rw [ht]
      simp
    · rw [if_pos (by simp [ha])]
      have hut : u ∈ t := by
        rcases List.mem_cons.1 hu with h | h
        · exact absurd h.symm ha
        · exact h
      rw [List.length_cons, ih hnd.2 hut, List.length_cons]
      have hp : 0 < t.length := List.length_pos.2 (fun he => by rw [he] at hut; cases hut)
      omega

/-- C10: clique projection defaults missing allocations to `1.0`: if the
capacity map has neither a `(u, idx)` entry nor a bare `u` entry, member
`u` of the hyperedge at position `idx` still emits its full fan-out — one
record per other member, `k - 1` records in total for a duplicate-free
member set of size `k` — all with capacity `1.0`; the projection itself is
a total function (the first conjunct fixes its shape: one block per
hyperedge, one `memberRows` group per member). -/
theorem C10_default_capacity (hs : List (List Nat)) (cm : CapMap) (bf fr : ℚ)
    (idx : Nat) (hed : List Nat) (u : Nat)
    (hh : hs.getD idx [] = hed) (hlt : idx < hs.length) (hu : u ∈ hed)
    (hnd : hed.Nodup)
    (hp : cm.pairC.find? (fun e => e.1 == (u, idx)) = none)
    (hb : cm.bareC.find? (fun e => e.1 == u) = none) :
    hyperedges_to_directed_edges_df hs cm bf fr =
      hs.enum.flatMap (fun ih => ih.2.flatMap (memberRows cm bf fr ih.1 ih.2)) ∧
    memberRows cm bf fr idx hed u =
      (hed.filter (fun v => v != u)).map (fun v => ⟨u, v, 1, bf, fr, true⟩) ∧
    (memberRows cm bf fr idx hed u).length = hed.length - 1 ∧
    ∀ r ∈ memberRows cm bf fr idx hed u, r.capacity = 1 := by
  have hrows : memberRows cm bf fr idx hed u =
      (hed.filter (fun v => v != u)).map (fun v => ⟨u, v, 1, bf, fr, true⟩) := by
    unfold memberRows
    rw [hp, hb]
    rfl
  refine ⟨rfl, hrows, ?_, ?_⟩
  · rw [hrows, List.length_map]
    exact filter_ne_length hnd hu
  · intro r hr
    rw [hrows] at hr
    obtain ⟨v, _, hv⟩ := List.mem_map.1 hr
    rw [← hv]

/-- Witness for C10 on a 3-member hyperedge with an empty capacity map. -/
theorem C10_default_capacity_witness :
    memberRows ⟨[], []⟩ 100 1 0 [1,2,3] 2 =
      [⟨2, 1, 1, 100, 1, true⟩, ⟨2, 3, 1, 100, 1, true⟩] ∧
    (memberRows ⟨[], []⟩ 100 1 0 [1,2,3] 2).length = 2 := by
  have h := C10_default_capacity [[1,2,3]] ⟨[], []⟩ 100 1 0 [1,2,3] 2
    (by decide) (by decide) (by decide) (by decide) rfl rfl
  refine ⟨?_, ?_⟩
  · rw [h.2.1]
    rfl
  · rw [h.2.2.1]
    rfl

/-! ## Claim C4 -/

theorem adj_removeNode_sublist (H : Graph) (x u : Nat) :
    List.Sublist (adj (removeNode H x) u) (adj H u) := by
  rw [adj_removeNode]
  by_cases h : u = x
  · rw [if_pos h]; exact List.nil_sublist _
  · rw [if_neg h]; exact List.filter_sublist _

theorem filter_ne_length_nodes {l : List Nat} {x : Nat} (hnd : l.Nodup) (hx : x ∈ l) :
    (l.filter (fun y => y != x)).length + 1 = l.length := by
  have h1 := filter_ne_length hnd hx
  have hp : 0 < l.length := List.length_pos.2 (fun he => by rw [he] at hx; cases hx)
  omega

theorem length_removeNode {H : Graph} {x : Nat} (hnd : NodesND H)
    (hx : x ∈ nodesOf H) : (removeNode H x).length + 1 = H.length := by
  unfold removeNode
  rw [List.length_map]
  have h2 : (H.filter (fun p => p.1 != x)).map Prod.fst =
      (nodesOf H).filter (fun y => y != x) := by
    unfold nodesOf
    rw [List.filter_map]
    rfl
  have h3 : (H.filter (fun p => p.1 != x)).length =
      ((nodesOf H).filter (fun y => y != x)).length := by
    rw [← h2, List.length_map]
  rw [h3]
  have h4 : H.length = (nodesOf H).length := by
    unfold nodesOf
    rw [List.length_map]
  rw [h4]
  exact filter_ne_length_nodes hnd hx

theorem mem_addCover_self (cover : List Nat) (n : Nat) : n ∈ addCover cover n := by
  unfold addCover
  by_cases h : n ∈ cover
  · rw [if_pos h]; exact h
  · rw [if_neg h]; exact List.mem_append_right _ (List.mem_cons_self _ _)

theorem mem_addCover_mono {cover : List Nat} {c : Nat} (h : c ∈ cover) (n : Nat) :
    c ∈ addCover cover n := by
  unfold addCover
  by_cases hm : n ∈ cover
  · rw [if_pos hm]; exact h
  · rw [if_neg hm]; exact List.mem_append_left _ h

theorem mem_addCover_elim {cover : List Nat} {c n : Nat}
    (h : c ∈ addCover cover n) : c ∈ cover ∨ c = n := by
  unfold addCover at h
  by_cases hm : n ∈ cover
  · rw [if_pos hm] at h; exact Or.inl h
  · rw [if_neg hm] at h
    rcases List.mem_append.1 h with h2 | h2
    · exact Or.inl h2
    · exact Or.inr (by simpa using h2)

theorem gvcLoop_cover_mono :
    ∀ (fuel : Nat) (H : Graph) (cover : List Nat) (mn : Option Nat) {c : Nat},
      c ∈ cover → c ∈ gvcLoop fuel H cover mn := by
  intro fuel
  induction fuel with
  | zero => intro H cover mn c hc; exact hc
  | succ f ih =>
    intro H cover mn c hc
    unfold gvcLoop
    by_cases h0 : numberOfEdges H = 0
    · rw [if_pos h0]; exact hc
    · rw [if_neg h0]
      cases hsel : selectMaxDeg H with
      | none => exact hc
      | some nd =>
        dsimp only
        have hc2 : c ∈ addCover cover nd.1 := mem_addCover_mono hc nd.1
        cases mn with
        | none => exact ih _ _ _ hc2
        | some k =>
          dsimp only
          by_cases hk : k ≤ (addCover cover nd.1).length
          · rw [if_pos hk]; exact hc2
          · rw [if_neg hk]; exact ih _ _ _ hc2

theorem gvcLoop_covers :
    ∀ (fuel : Nat) (H : Graph) (cover : List Nat), WF H → H.length ≤ fuel →
      ∀ u v, v ∈ adj H u →
        u ∈ gvcLoop fuel H cover none ∨ v ∈ gvcLoop fuel H cover none := by
  intro fuel
  induction fuel with
  | zero =>
    intro H cover _ hle u v huv
    have hH : H = [] := List.length_eq_zero.1 (Nat.le_zero.1 hle)
    rw [hH] at huv
    exact absurd huv (List.not_mem_nil v)
  | succ f ih =>
    intro H cover hwf hle u v huv
    unfold gvcLoop
    by_cases h0 : numberOfEdges H = 0
    · exact absurd huv ((numberOfEdges_eq_zero hwf.1 hwf.2.2.1).1 h0 u v)
    · rw [if_neg h0]
      have hne : H ≠ [] := by
        intro he
        rw [he] at huv
        exact absurd huv (List.not_mem_nil v)
      obtain ⟨nd, hsel, hmem, _, _⟩ := selectMaxDeg_spec hne
      rw [hsel]
      dsimp only
      by_cases hu : u = nd.1
      · left
        rw [hu]
        exact gvcLoop_cover_mono f _ _ none (mem_addCover_self cover nd.1)
      · by_cases hv : v = nd.1
        · right
          rw [hv]
          exact gvcLoop_cover_mono f _ _ none (mem_addCover_self cover nd.1)
        · have huv2 : v ∈ adj (removeNode H nd.1) u := hasEdge_removeNode.2 ⟨hu, hv, huv⟩
          have hle2 : (removeNode H nd.1).length ≤ f := by
            have := length_removeNode hwf.1 hmem
            omega
          exact ih _ _ (WF_removeNode hwf nd.1) hle2 u v huv2

/-- C4: with no size cap, the greedy vertex cover is a valid vertex cover
of the whole input graph: every edge has at least one endpoint in the
returned cover set.  (The working copy loses an edge only by deleting a
node just added to the cover, and the loop only stops once no edge
remains.) -/
theorem C4_nch_cover_guarantee (G : Graph) (hwf : WF G) :
    ∀ u v, hasEdge G u v →
      u ∈ greedy_vertex_cover G none ∨ v ∈ greedy_vertex_cover G none := by
  intro u v huv
  unfold greedy_vertex_cover
  rw [copyGraph_eq]
  exact gvcLoop_covers G.length G [] hwf (Nat.le_refl _) u v huv

/-- Witness for C4 on the demo graph's edge `(1, 2)`. -/
theorem C4_nch_cover_guarantee_witness :
    WF fhsDemoGraph ∧
      (1 ∈ greedy_vertex_cover fhsDemoGraph none ∨
        2 ∈ greedy_vertex_cover fhsDemoGraph none) :=
  ⟨by decide, C4_nch_cover_guarantee fhsDemoGraph (by decide) 1 2 (by decide)⟩

/-! ## Claim C5 -/

theorem NodesND_removeNode {H : Graph} (hnd : NodesND H) (x : Nat) :
    NodesND (removeNode H x) := by
  unfold NodesND
  rw [nodesOf_removeNode]
  exact hnd.filter _

theorem sublist_ne_nil {α : Type} {s t : List α} (h : List.Sublist s t)
    (hs : s ≠ []) : t ≠ [] := by
  intro ht
  rw [ht] at h
  exact hs (List.sublist_nil.1 h)

/-- Every node the greedy cover loop ever adds has a non-empty
neighbourhood in the ambient original graph. -/
theorem gvcLoop_cover_adj (G : Graph) :
    ∀ (fuel : Nat) (H : Graph) (cover : List Nat) (mn : Option Nat),
      NodesND H → (∀ u, List.Sublist (adj H u) (adj G u)) →
      (∀ c ∈ cover, adj G c ≠ []) →
      ∀ c ∈ gvcLoop fuel H cover mn, adj G c ≠ [] := by
  intro fuel
  induction fuel with
  | zero => intro H cover mn _ _ hcov c hc; exact hcov c hc
  | succ f ih =>
    intro H cover mn hnd hsub hcov c hc
    unfold gvcLoop at hc
    by_cases h0 : numberOfEdges H = 0
    · rw [if_pos h0] at hc
      exact hcov c hc
    · rw [if_neg h0] at hc
      have hne : H ≠ [] := by
        intro he
        obtain ⟨u, v, huv⟩ := numberOfEdges_pos_adj hnd h0
        rw [he] at huv
        exact absurd huv (List.not_mem_nil v)
      obtain ⟨nd, hsel, hmemn, hdeg, hall⟩ := selectMaxDeg_spec hne
      rw [hsel] at hc
      dsimp only at hc
      obtain ⟨u, v, huv⟩ := numberOfEdges_pos_adj hnd h0
      have hup : 0 < degree H u := degree_pos_of_adj huv
      obtain ⟨p, _, hpm, hpk, _⟩ := mem_adj_entry huv
      have hnd2 : 0 < nd.2 := Nat.lt_of_lt_of_le hup (hpk ▸ hall p hpm)
      have hadjH : adj H nd.1 ≠ [] := adj_ne_nil_of_degree_pos (hdeg ▸ hnd2)
      have hadjG : adj G nd.1 ≠ [] := sublist_ne_nil (hsub nd.1) hadjH
      have hcov2 : ∀ x ∈ addCover cover nd.1, adj G x ≠ [] := by
        intro x hx
        rcases mem_addCover_elim hx with h | h
        · exact hcov x h
        · exact h ▸ hadjG
      have hnd3 : NodesND (removeNode H nd.1) := NodesND_removeNode hnd nd.1
      have hsub2 : ∀ u2, List.Sublist (adj (removeNode H nd.1) u2) (adj G u2) :=
        fun u2 => (adj_removeNode_sublist H nd.1 u2).trans (hsub u2)
      cases mn with
      | none => exact ih _ _ none hnd3 hsub2 hcov2 c hc
      | some k =>
        dsimp only at hc
        by_cases hk : k ≤ (addCover cover nd.1).length
        · rw [if_pos hk] at hc
          exact hcov2 c hc
        · rw [if_neg hk] at hc
          exact ih _ _ (some k) hnd3 hsub2 hcov2 c hc

/-- The `defaultdict` membership update of one hyperedge, processed
member by member, preserves the extended consistency invariant. -/
theorem consistent_fold_DD {heds : List (List Nat)} {hed : List Nat} :
    ∀ (l : List Nat) (memb : List (Nat × List Nat)), l.Nodup →
      (∀ v ∈ l, v ∈ hed) →
      (∀ p ∈ memb, p.2.Nodup ∧ ∀ i ∈ p.2,
        (i < heds.length ∧ p.1 ∈ heds.getD i []) ∨ (i = heds.length ∧ p.1 ∈ hed)) →
      (∀ p ∈ memb, p.1 ∈ l → heds.length ∉ p.2) →
      ∀ p ∈ l.foldl (fun mm v => membAppendDD mm v heds.length) memb,
        p.2.Nodup ∧ ∀ i ∈ p.2,
          (i < heds.length ∧ p.1 ∈ heds.getD i []) ∨ (i = heds.length ∧ p.1 ∈ hed) := by
  intro l
  induction l with
  | nil => intro memb _ _ hQ _ p hp; exact hQ p hp
  | cons v rest ih =>
    intro memb hlnd hsubl hQ hfresh
    rw [List.foldl_cons]
    have hvrest : v ∉ rest := (List.nodup_cons.1 hlnd).1
    have hvhed : v ∈ hed := hsubl v (List.mem_cons_self v rest)
    refine ih _ (List.nodup_cons.1 hlnd).2
      (fun x hx => hsubl x (List.mem_cons_of_mem v hx)) ?_ ?_
    · intro p2 hp2
      unfold membAppendDD at hp2
      by_cases hany : memb.any (fun p => p.1 == v)
      · rw [if_pos hany] at hp2
        obtain ⟨p, hp, he⟩ := List.mem_map.1 hp2
        obtain ⟨hnd, hidx⟩ := hQ p hp
        by_cases hkey : (p.1 == v) = true
        · rw [if_pos hkey] at he
          rw [← he]
          have hkey2 : p.1 = v := by simpa using hkey
          have hfr : heds.length ∉ p.2 :=
            hfresh p hp (hkey2 ▸ List.mem_cons_self v rest)
          refine ⟨List.Nodup.append hnd (List.nodup_singleton _)
            (by simpa [List.disjoint_singleton] using hfr), ?_⟩
          intro i hi
          rcases List.mem_append.1 hi with h1 | h2
          · exact hidx i h1
          · have : i = heds.length := by simpa using h2
            exact Or.inr ⟨this, hkey2 ▸ hvhed⟩
        · rw [if_neg hkey] at he
          rw [← he]
          exact ⟨hnd, hidx⟩
      · rw [if_neg hany] at hp2
        rcases List.mem_append.1 hp2 with h1 | h2
        · exact hQ p2 h1
        · have : p2 = (v, [heds.length]) := by simpa using h2
          rw [this]
          exact ⟨List.nodup_singleton _, by
            intro i hi
            have : i = heds.length := by simpa using hi
            exact Or.inr ⟨this, hvhed⟩⟩
    · intro p2 hp2 hrest
      unfold membAppendDD at hp2
      by_cases hany : memb.any (fun p => p.1 == v)
      · rw [if_pos hany] at hp2
        obtain ⟨p, hp, he⟩ := List.mem_map.1 hp2
        by_cases hkey : (p.1 == v) = true
        · rw [if_pos hkey] at he
          have hkey2 : p.1 = v := by simpa using hkey
          rw [← he] at hrest
          dsimp only at hrest
          exact absurd (hkey2 ▸ hrest) hvrest
        · rw [if_neg hkey] at he
          rw [← he]
          rw [← he] at hrest
          exact hfresh p hp (List.mem_cons_of_mem v hrest)
      · rw [if_neg hany] at hp2
        rcases List.mem_append.1 hp2 with h1 | h2
        · exact hfresh p2 h1 (List.mem_cons_of_mem v hrest)
        · have he : p2 = (v, [heds.length]) := by simpa using h2
          rw [he] at hrest
          exact absurd hrest hvrest

/-- Same statement for the plain-dict update used by the supernode
builder. -/
theorem consistent_fold_One {heds : List (List Nat)} {hed : List Nat} :
    ∀ (l : List Nat) (memb : List (Nat × List Nat)), l.Nodup →
      (∀ v ∈ l, v ∈ hed) →
      (∀ p ∈ memb, p.2.Nodup ∧ ∀ i ∈ p.2,
        (i < heds.length ∧ p.1 ∈ heds.getD i []) ∨ (i = heds.length ∧ p.1 ∈ hed)) →
      (∀ p ∈ memb, p.1 ∈ l → heds.length ∉ p.2) →
      ∀ p ∈ l.foldl (fun mm v => membAppendOne mm v heds.length) memb,
        p.2.Nodup ∧ ∀ i ∈ p.2,
          (i < heds.length ∧ p.1 ∈ heds.getD i []) ∨ (i = heds.length ∧ p.1 ∈ hed) := by
  intro l
  induction l with
  | nil => intro memb _ _ hQ _ p hp; exact hQ p hp
  | cons v rest ih =>
    intro memb hlnd hsubl hQ hfresh
    rw [List.foldl_cons]
    have hvrest : v ∉ rest := (List.nodup_cons.1 hlnd).1
    have hvhed : v ∈ hed := hsubl v (List.mem_cons_self v rest)
    refine ih _ (List.nodup_cons.1 hlnd).2
      (fun x hx => hsubl x (List.mem_cons_of_mem v hx)) ?_ ?_
    · intro p2 hp2
      unfold membAppendOne at hp2
      obtain ⟨p, hp, he⟩ := List.mem_map.1 hp2
      obtain ⟨hnd, hidx⟩ := hQ p hp
      by_cases hkey : (p.1 == v) = true
      · rw [if_pos hkey] at he
        rw [← he]
        have hkey2 : p.1 = v := by simpa using hkey
        have hfr : heds.length ∉ p.2 :=
          hfresh p hp (hkey2 ▸ List.mem_cons_self v rest)
        refine ⟨List.Nodup.append hnd (List.nodup_singleton _)
          (by simpa [List.disjoint_singleton] using hfr), ?_⟩
        intro i hi
        rcases List.mem_append.1 hi with h1 | h2
        · exact hidx i h1
        · have : i = heds.length := by simpa using h2
          exact Or.inr ⟨this, hkey2 ▸ hvhed⟩
      · rw [if_neg hkey] at he
        rw [← he]
        exact ⟨hnd, hidx⟩
    · intro p2 hp2 hrest
      unfold membAppendOne at hp2
      obtain ⟨p, hp, he⟩ := List.mem_map.1 hp2
      by_cases hkey : (p.1 == v) = true
      · rw [if_pos hkey] at he
        have hkey2 : p.1 = v := by simpa using hkey
        rw [← he] at hrest
        dsimp only at hrest
        exact absurd (hkey2 ▸ hrest) hvrest
      · rw [if_neg hkey] at he
        rw [← he]
        rw [← he] at hrest
        exact hfresh p hp (List.mem_cons_of_mem v hrest)

theorem consistent_extend {heds : List (List Nat)} {hed : List Nat}
    {memb2 : List (Nat × List Nat)}
    (hQ : ∀ p ∈ memb2, p.2.Nodup ∧ ∀ i ∈ p.2,
      (i < heds.length ∧ p.1 ∈ heds.getD i []) ∨ (i = heds.length ∧ p.1 ∈ hed)) :
    ConsistentMemb (heds ++ [hed]) memb2 := by
  intro p hp
  obtain ⟨hnd, hidx⟩ := hQ p hp
  refine ⟨hnd, fun i hi => ?_⟩
  rcases hidx i hi with ⟨h1, h2⟩ | ⟨h1, h2⟩
  · exact ⟨by rw [List.length_append]; simp only [List.length_singleton]; omega,
      by rw [List.getD_append heds [hed] [] i h1]; exact h2⟩
  · subst h1
    exact ⟨by rw [List.length_append]; simp only [List.length_singleton]; omega,
      by rw [getD_append_length]; exact h2⟩

theorem consistent_relax {heds : List (List Nat)} (hed : List Nat)
    {memb : List (Nat × List Nat)} (hc : ConsistentMemb heds memb) :
    (∀ p ∈ memb, p.2.Nodup ∧ ∀ i ∈ p.2,
      (i < heds.length ∧ p.1 ∈ heds.getD i []) ∨ (i = heds.length ∧ p.1 ∈ hed)) ∧
    (∀ p ∈ memb, p.1 ∈ hed → heds.length ∉ p.2) := by
  constructor
  · intro p hp
    obtain ⟨hnd, hidx⟩ := hc p hp
    exact ⟨hnd, fun i hi => Or.inl (hidx i hi)⟩
  · intro p hp _ hmem
    exact absurd ((hc p hp).2 _ hmem).1 (Nat.lt_irrefl _)

theorem nchFold_consistent (G : Graph) :
    ∀ (l : List Nat) (heds : List (List Nat)) (memb : List (Nat × List Nat)),
      (∀ c ∈ l, adj G c ≠ []) → (∀ c ∈ l, (adj G c).Nodup) →
      ConsistentMemb heds memb →
      ConsistentMemb (nchFold G l heds.length (heds, memb)).1
        (nchFold G l heds.length (heds, memb)).2 := by
  intro l
  induction l with
  | nil => intro heds memb _ _ hc; exact hc
  | cons c rest ih =>
    intro heds memb hne hnd hc
    unfold nchFold
    have hcne : (adj G c).isEmpty = false := by
      cases hadj : adj G c with
      | nil => exact absurd hadj (hne c (List.mem_cons_self c rest))
      | cons a t => rfl
    rw [if_neg (by rw [hcne]; exact Bool.false_ne_true)]
    have hcnd : (adj G c).Nodup := hnd c (List.mem_cons_self c rest)
    obtain ⟨hQ0, hfresh0⟩ := consistent_relax (adj G c) hc
    have hQ := consistent_fold_DD (adj G c) memb hcnd (fun v hv => hv) hQ0 hfresh0
    have hc2 : ConsistentMemb (heds ++ [adj G c])
        ((adj G c).foldl (fun mm v => membAppendDD mm v heds.length) memb) :=
      consistent_extend hQ
    have hlen : (heds ++ [adj G c]).length = heds.length + 1 := by
      rw [List.length_append]
      simp
    have := ih (heds ++ [adj G c]) _
      (fun x hx => hne x (List.mem_cons_of_mem c hx))
      (fun x hx => hnd x (List.mem_cons_of_mem c hx)) hc2
    rw [hlen] at this
    exact this

theorem snFold_consistent (G : Graph) :
    ∀ (l : List Nat) (heds : List (List Nat)) (memb : List (Nat × List Nat)),
      (∀ c ∈ l, adj G c ≠ []) → (∀ c ∈ l, (adj G c).Nodup) →
      ConsistentMemb heds memb →
      ConsistentMemb (snFold G l heds.length (heds, memb)).1
        (snFold G l heds.length (heds, memb)).2 := by
  intro l
  induction l with
  | nil => intro heds memb _ _ hc; exact hc
  | cons c rest ih =>
    intro heds memb hne hnd hc
    unfold snFold
    have hcne : (adj G c).isEmpty = false := by
      cases hadj : adj G c with
      | nil => exact absurd hadj (hne c (List.mem_cons_self c rest))
      | cons a t => rfl
    rw [if_neg (by rw [hcne]; exact Bool.false_ne_true)]
    have hcnd : (adj G c).Nodup := hnd c (List.mem_cons_self c rest)
    obtain ⟨hQ0, hfresh0⟩ := consistent_relax (adj G c) hc
    have hQ := consistent_fold_One (adj G c) memb hcnd (fun v hv => hv) hQ0 hfresh0
    have hc2 : ConsistentMemb (heds ++ [adj G c])
        ((adj G c).foldl (fun mm v => membAppendOne mm v heds.length) memb) :=
      consistent_extend hQ
    have hlen : (heds ++ [adj G c]).length = heds.length + 1 := by
      rw [List.length_append]
      simp
    have := ih (heds ++ [adj G c]) _
      (fun x hx => hne x (List.mem_cons_of_mem c hx))
      (fun x hx => hnd x (List.mem_cons_of_mem c hx)) hc2
    rw [hlen] at this
    exact this

theorem memb_init_consistent (G : Graph) (heds : List (List Nat)) :
    ConsistentMemb heds (G.map (fun p => (p.1, ([] : List Nat)))) := by
  intro p hp
  obtain ⟨q, _, he⟩ := List.mem_map.1 hp
  rw [← he]
  exact ⟨List.nodup_nil, by intro i hi; cases hi⟩

theorem create_nch_consistent (G : Graph) (mc : Option Nat) (hwf : WF G) :
    ConsistentMemb (create_nch G mc).1 (create_nch G mc).2 := by
  unfold create_nch
  have hcov : ∀ c ∈ (greedy_vertex_cover G mc).mergeSort (fun a b => decide (a ≤ b)),
      adj G c ≠ [] := by
    intro c hc
    have hc2 : c ∈ greedy_vertex_cover G mc := List.mem_mergeSort.1 hc
    unfold greedy_vertex_cover at hc2
    rw [copyGraph_eq] at hc2
    exact gvcLoop_cover_adj G G.length G [] mc hwf.1
      (fun u => List.Sublist.refl _) (fun x hx => absurd hx (List.not_mem_nil x)) c hc2
  have h0 : (0 : Nat) = ([] : List (List Nat)).length := rfl
  rw [h0]
  exact nchFold_consistent G _ [] []
    hcov (fun c _ => adj_nodup hwf.2.1 c) (fun p hp => absurd hp (List.not_mem_nil p))

theorem create_supernode_consistent (G : Graph) (hwf : WF G)
    (hiso : ∀ p ∈ G, p.2 ≠ []) :
    ConsistentMemb (create_supernode_hyperedges G).1
      (create_supernode_hyperedges G).2.1 := by
  unfold create_supernode_hyperedges
  dsimp only
  have hcov : ∀ c ∈ select_supernodes G 4 5000, adj G c ≠ [] := by
    intro c hc
    have hcn : c ∈ nodesOf G := by
      unfold select_supernodes at hc
      exact (List.mem_filter.1 hc).1
    obtain ⟨p, hp, he⟩ := List.mem_map.1 hcn
    rw [← he, adj_of_mem hwf.1 hp]
    exact hiso p hp
  have h0 : (0 : Nat) = ([] : List (List Nat)).length := rfl
  rw [h0]
  exact snFold_consistent G _ [] _
    hcov (fun c _ => adj_nodup hwf.2.1 c) (memb_init_consistent G [])

theorem create_rollup_consistent (G : Graph) :
    ConsistentMemb (create_lnrollup_hyperedges G).1
      (create_lnrollup_hyperedges G).2.1 := by
  intro p hp
  unfold create_lnrollup_hyperedges at hp
  dsimp only at hp
  obtain ⟨q, hq, he⟩ := List.mem_map.1 hp
  rw [← he]
  refine ⟨List.nodup_singleton 0, ?_⟩
  intro i hi
  have h0 : i = 0 := by simpa using hi
  subst h0
  refine ⟨Nat.zero_lt_one, ?_⟩
  show q.1 ∈ nodesOf G
  exact List.mem_map_of_mem Prod.fst hq

/-- C5 (counterexample): on the graph with node order `1, 2, 3`, node 1
isolated and edge `2 - 3`, all three nodes survive supernode selection;
`create_supernode_hyperedges` skips the isolated node 1 but keeps
advancing `enumerate`'s counter, so node 3 is recorded in hyperedge
"index 1" (which is `[2]`, not containing 3) and node 2 in "index 2",
which is out of range for the 2-element hyperedge list. -/
theorem C5_counterexample :
    WF supernodeCounterGraph ∧
    select_supernodes supernodeCounterGraph 4 5000 = [1, 2, 3] ∧
    (create_supernode_hyperedges supernodeCounterGraph).1 = [[3], [2]] ∧
    (create_supernode_hyperedges supernodeCounterGraph).2.1 =
      [(1, []), (2, [2]), (3, [1])] ∧
    ¬ ConsistentMemb (create_supernode_hyperedges supernodeCounterGraph).1
        (create_supernode_hyperedges supernodeCounterGraph).2.1 := by
  decide

/-- C5 (amended): the membership-index invariant — every recorded index
addresses an existing hyperedge containing the node, with no duplicate
index per node — holds for the FHS builder (whenever it returns), for the
NCH builder on well-formed graphs, for the rollup builder
unconditionally, and for the supernode builder on well-formed graphs with
no isolated node.  (For the supernode builder the isolated-node proviso is
necessary: see the counterexample, where `enumerate(S)` keeps counting
across the `continue` that skips an empty neighbourhood.) -/
theorem C5_membership_consistency :
    (∀ (G : Graph) (m : Nat) (s : FhsState), create_fhs G m = some s →
      ConsistentMemb s.hyperedges s.memb) ∧
    (∀ (G : Graph) (mc : Option Nat), WF G →
      ConsistentMemb (create_nch G mc).1 (create_nch G mc).2) ∧
    (∀ G : Graph, WF G → (∀ p ∈ G, p.2 ≠ []) →
      ConsistentMemb (create_supernode_hyperedges G).1
        (create_supernode_hyperedges G).2.1) ∧
    (∀ G : Graph, ConsistentMemb (create_lnrollup_hyperedges G).1
      (create_lnrollup_hyperedges G).2.1) := by
  refine ⟨?_, ?_, ?_, create_rollup_consistent⟩
  · intro G m s h
    unfold create_fhs at h
    exact fhsLoop_consistent _ _ _ (initFhsState_consistent G) h
  · intro G mc hwf
    exact create_nch_consistent G mc hwf
  · intro G hwf hiso
    exact create_supernode_consistent G hwf hiso

/-- Witness for C5 across all four builders at concrete graphs. -/
theorem C5_membership_consistency_witness :
    ConsistentMemb (create_nch fhsDemoGraph none).1 (create_nch fhsDemoGraph none).2 ∧
    ConsistentMemb (create_supernode_hyperedges pairGraph).1
      (create_supernode_hyperedges pairGraph).2.1 ∧
    ConsistentMemb (create_lnrollup_hyperedges pairGraph).1
      (create_lnrollup_hyperedges pairGraph).2.1 ∧
    ((create_fhs pairGraph 2).map
      (fun s => decide (ConsistentMemb s.hyperedges s.memb))).getD false = true := by
  refine ⟨C5_membership_consistency.2.1 fhsDemoGraph none (by decide),
    C5_membership_consistency.2.2.1 pairGraph (by decide) (by decide),
    C5_membership_consistency.2.2.2 pairGraph, ?_⟩
  cases he : create_fhs pairGraph 2 with
  | none => exact absurd he (by decide)
  | some s =>
    have hc := C5_membership_consistency.1 pairGraph 2 s he
    simp [decide_eq_true hc]

end LN
